import Mathlib

set_option maxRecDepth 4000

/-!
Shallow embedding of the url-file-db repository (src/index.js, current variant at
lines 422-1150, and src/canonical_path.js, primary variant at lines 1-189, plus
decode_file_path_component from the second variant).

Modelling conventions:
* A JavaScript string is a list of Unicode code points, `Str := List Nat`.
* `decodeURIComponent` is modelled after the ECMAScript Decode algorithm with the
  strict UTF-8 table; a thrown URIError becomes `none`.
* `String.prototype.toLowerCase` / `toUpperCase` are modelled as per-code-point
  ASCII case mapping (the repository only case-maps filesystem-safe encoded names).
* `String.prototype.normalize` (Unicode NFC) is not computable here; every
  function that calls it takes it as an explicit parameter `nf : Str → Str`, and
  theorems assume only true properties of NFC (idempotence, identity on ASCII).
-/

abbrev Str := List Nat

/-- ASCII lowercase of one code point (model of JS toLowerCase, ASCII range). -/
def toLowerAsciiChar (c : Nat) : Nat := if 65 ≤ c ∧ c ≤ 90 then c + 32 else c

/-- ASCII uppercase of one code point (model of JS toUpperCase, ASCII range). -/
def toUpperAsciiChar (c : Nat) : Nat := if 97 ≤ c ∧ c ≤ 122 then c - 32 else c

/-- JS `s.toLowerCase()` modelled per code point. -/
def strLower (s : Str) : Str := s.map toLowerAsciiChar

/-- Uppercase hex digit character for a value below 16 (toString(16).toUpperCase). -/
def hexDigitU (d : Nat) : Nat := if d < 10 then 48 + d else 55 + d

/-- Fuelled base-16 digit extraction, little-endian (model of Number toString 16). -/
def hexRev : Nat → Nat → List Nat
  | 0, _ => []
  | fuel + 1, n => if n < 16 then [hexDigitU n] else hexDigitU (n % 16) :: hexRev fuel (n / 16)

/-- Hex digits of n, most significant first, uppercase. -/
def toHexUpper (n : Nat) : List Nat := (hexRev (n + 1) n).reverse

/-- JS padStart(2, '0'). -/
def padStart2 (l : List Nat) : List Nat := List.replicate (2 - l.length) 48 ++ l

/-- encode_char from canonical_path.js / index.js:
    '%' + char.charCodeAt(0).toString(16).toUpperCase().padStart(2, '0'). -/
def encode_char (c : Nat) : Str := 37 :: padStart2 (toHexUpper c)

/-- Two-digit percent escape; `encode_char` agrees with this below 256. -/
def pct (c : Nat) : Str := [37, hexDigitU (c / 16), hexDigitU (c % 16)]

theorem hexRev_small (fuel n : Nat) (h : n < 16) : hexRev (fuel + 1) n = [hexDigitU n] := by
  simp [hexRev, h]

theorem hexRev_step (fuel n : Nat) (h : ¬n < 16) :
    hexRev (fuel + 1) n = hexDigitU (n % 16) :: hexRev fuel (n / 16) := by
  simp [hexRev, h]

theorem encode_char_eq_pct (c : Nat) (h : c < 256) : encode_char c = pct c := by
  unfold encode_char pct toHexUpper padStart2
  by_cases h16 : c < 16
  · have hd : c / 16 = 0 := Nat.div_eq_of_lt h16
    have hm : c % 16 = c := Nat.mod_eq_of_lt h16
    rw [hexRev_small _ _ h16, hd, hm]
    simp [hexDigitU]
  · have hlt : c / 16 < 16 := by omega
    rw [hexRev_step _ _ h16]
    obtain ⟨k, rfl⟩ : ∃ k, c = k + 1 := ⟨c - 1, by omega⟩
    rw [hexRev_small _ _ hlt]
    simp

/-- Value of a hex digit character, case-insensitive (ECMA Decode). -/
def hexVal (c : Nat) : Option Nat :=
  if 48 ≤ c ∧ c ≤ 57 then some (c - 48)
  else if 65 ≤ c ∧ c ≤ 70 then some (c - 55)
  else if 97 ≤ c ∧ c ≤ 102 then some (c - 87)
  else none

/-- Tokens of a percent-encoded string: unescaped code points and escaped bytes. -/
inductive Tok where
  | raw : Nat → Tok
  | byte : Nat → Tok
  deriving DecidableEq, Repr

/-- First phase of the ECMA Decode algorithm: each '%XX' becomes a byte token
    (URIError, i.e. `none`, on a malformed escape), everything else passes raw. -/
def tokenizePct : Str → Option (List Tok)
  | [] => some []
  | c :: rest =>
    if c = 37 then
      match rest with
      | h1 :: h2 :: rest' =>
        match hexVal h1, hexVal h2 with
        | some a, some b => (tokenizePct rest').map (Tok.byte (16 * a + b) :: ·)
        | _, _ => none
      | _ => none
    else (tokenizePct rest).map (Tok.raw c :: ·)

/-- Leading byte classification of strict UTF-8 (ECMA Decode): initial value,
    number of continuation bytes, and admissible range of the first continuation. -/
def utf8Start (b : Nat) : Option (Nat × Nat × Nat × Nat) :=
  if 194 ≤ b ∧ b ≤ 223 then some (b - 192, 1, 128, 191)
  else if b = 224 then some (b - 224, 2, 160, 191)
  else if 225 ≤ b ∧ b ≤ 236 then some (b - 224, 2, 128, 191)
  else if b = 237 then some (b - 224, 2, 128, 159)
  else if 238 ≤ b ∧ b ≤ 239 then some (b - 224, 2, 128, 191)
  else if b = 240 then some (b - 240, 3, 144, 191)
  else if 241 ≤ b ∧ b ≤ 243 then some (b - 240, 3, 128, 191)
  else if b = 244 then some (b - 240, 3, 128, 143)
  else none

/-- Second phase of the ECMA Decode algorithm: byte tokens must form strict UTF-8
    sequences (contiguous escapes); raw tokens pass through.  The optional state
    is (value so far, continuations still needed, range of the next one). -/
def asmRun : List Tok → Option (Nat × Nat × Nat × Nat) → Option (List Nat)
  | [], none => some []
  | [], some _ => none
  | Tok.raw c :: rest, none => (asmRun rest none).map (c :: ·)
  | Tok.byte b :: rest, none =>
    if b < 128 then (asmRun rest none).map (b :: ·)
    else
      match utf8Start b with
      | some st => asmRun rest (some st)
      | none => none
  | Tok.raw _ :: _, some _ => none
  | Tok.byte c :: rest, some (v, need, lo, hi) =>
    if lo ≤ c ∧ c ≤ hi then
      if need = 1 then (asmRun rest none).map ((v * 64 + (c - 128)) :: ·)
      else asmRun rest (some (v * 64 + (c - 128), need - 1, 128, 191))
    else none

def assembleUtf8 (ts : List Tok) : Option (List Nat) := asmRun ts none

/-- Model of JS decodeURIComponent; `none` models a thrown URIError. -/
def decodeURIComponentStr (s : Str) : Option Str :=
  (tokenizePct s).bind assembleUtf8

/-- A string `R` is a percent-encoding of `s`: each code point of `s` appears in `R`
    either raw (and is then not '%') or as a single-byte '%XX' escape. -/
inductive PEnc : Str → Str → Prop where
  | nil : PEnc [] []
  | raw {c : Nat} {R s : Str} : c ≠ 37 → PEnc R s → PEnc (c :: R) (c :: s)
  | pc {c : Nat} {R s : Str} : c < 128 → PEnc R s → PEnc (pct c ++ R) (c :: s)

theorem hexVal_hexDigitU (d : Nat) (h : d < 16) : hexVal (hexDigitU d) = some d := by
  unfold hexDigitU
  by_cases h10 : d < 10
  · rw [if_pos h10]
    unfold hexVal
    rw [if_pos (by omega)]
    congr 1
    omega
  · rw [if_neg h10]
    unfold hexVal
    rw [if_neg (by omega), if_pos (by omega)]
    congr 1
    omega

theorem tokenizePct_pct (c : Nat) (h : c < 256) (R : Str) :
    tokenizePct (pct c ++ R) = (tokenizePct R).map (Tok.byte c :: ·) := by
  have h1 : c / 16 < 16 := by omega
  have h2 : c % 16 < 16 := Nat.mod_lt _ (by omega)
  have hc : 16 * (c / 16) + c % 16 = c := by omega
  show tokenizePct (37 :: hexDigitU (c / 16) :: hexDigitU (c % 16) :: R) = _
  conv_lhs => rw [tokenizePct.eq_def]
  simp only [hexVal_hexDigitU _ h1, hexVal_hexDigitU _ h2, hc]
  simp

theorem tokenizePct_raw (c : Nat) (h : c ≠ 37) (R : Str) :
    tokenizePct (c :: R) = (tokenizePct R).map (Tok.raw c :: ·) := by
  conv_lhs => rw [tokenizePct.eq_def]
  simp only [if_neg h]

theorem assembleUtf8_raw (c : Nat) (T : List Tok) :
    assembleUtf8 (Tok.raw c :: T) = (assembleUtf8 T).map (c :: ·) := rfl

theorem assembleUtf8_byte_ascii (b : Nat) (h : b < 128) (T : List Tok) :
    assembleUtf8 (Tok.byte b :: T) = (assembleUtf8 T).map (b :: ·) := by
  show asmRun (Tok.byte b :: T) none = (asmRun T none).map (b :: ·)
  conv_lhs => rw [asmRun.eq_def]
  simp only [if_pos h]

theorem PEnc_decode_append {R s : Str} (he : PEnc R s) :
    ∀ K os, decodeURIComponentStr K = some os →
      decodeURIComponentStr (R ++ K) = some (s ++ os) := by
  induction he with
  | nil => intro K os h; simpa using h
  | raw hne _ ih =>
    intro K os h
    rcases Option.bind_eq_some.mp (ih K os h) with ⟨ts, hts, has⟩
    show decodeURIComponentStr (_ :: (_ ++ K)) = _
    unfold decodeURIComponentStr
    rw [tokenizePct_raw _ hne, hts]
    simp [assembleUtf8_raw, has]
  | pc hlt _ ih =>
    intro K os h
    rcases Option.bind_eq_some.mp (ih K os h) with ⟨ts, hts, has⟩
    show decodeURIComponentStr (pct _ ++ _ ++ K) = _
    unfold decodeURIComponentStr
    rw [List.append_assoc, tokenizePct_pct _ (by omega), hts]
    simp [assembleUtf8_byte_ascii _ hlt, has]

theorem PEnc_decode {R s : Str} (he : PEnc R s) : decodeURIComponentStr R = some s := by
  have := PEnc_decode_append he [] []
    (by simp [decodeURIComponentStr, tokenizePct, assembleUtf8, asmRun])
  simpa using this

theorem PEnc_append {R1 s1 R2 s2 : Str} (h1 : PEnc R1 s1) (h2 : PEnc R2 s2) :
    PEnc (R1 ++ R2) (s1 ++ s2) := by
  induction h1 with
  | nil => simpa using h2
  | raw hne _ ih => exact PEnc.raw hne ih
  | pc hlt _ ih =>
    rw [List.append_assoc]
    exact PEnc.pc hlt ih

/-! ## Canonical path parser (canonical_path.js, first variant, lines 1-189) -/

/-- The reserved component "index". -/
def strIndex : Str := [105, 110, 100, 101, 120]

/-- The component ".". -/
def strDot : Str := [46]

/-- The component "..". -/
def strDotDot : Str := [46, 46]

/-- JS String.prototype.split('/') on a list of code points. -/
def splitOnSlash : Str → List Str
  | [] => [[]]
  | c :: rest =>
    if c = 47 then [] :: splitOnSlash rest
    else
      match splitOnSlash rest with
      | [] => [[c]]
      | h :: t => (c :: h) :: t

/-- JS Array.prototype.join('/') on a list of components. -/
def joinSlash : List Str → Str
  | [] => []
  | [x] => x
  | x :: y :: t => x ++ 47 :: joinSlash (y :: t)

/-- Option-valued map: `none` as soon as `f` fails (a JS map whose callback may throw). -/
def mapOpt (f : α → Option β) : List α → Option (List β)
  | [] => some []
  | x :: xs =>
    match f x, mapOpt f xs with
    | some y, some ys => some (y :: ys)
    | _, _ => none

/-- decode_component (canonical_path.js line 36): decodeURIComponent(component).normalize().
    The Unicode NFC normalize is the explicit parameter `nf`. -/
def decode_component (nf : Str → Str) (x : Str) : Option Str :=
  (decodeURIComponentStr x).map nf

/-- JS Array.prototype.indexOf: index of the first occurrence. -/
def indexOfStr (a : Str) : List Str → Option Nat
  | [] => none
  | x :: xs => if x = a then some 0 else (indexOfStr a xs).map (· + 1)

/-- Strip '/index' and everything after it: components.indexOf('index') followed by
    slice(0, index_pos) when found (canonical_path.js lines 57-61). -/
def truncateAtIndex (l : List Str) : List Str :=
  match indexOfStr strIndex l with
  | some i => l.take i
  | none => l

/-- The '.' / '..' / empty-fragment normalization loop (canonical_path.js lines 64-75):
    '.' and '' are dropped, '..' pops the last kept fragment (no-op when empty). -/
def normalize_dots : List Str → List Str → List Str
  | acc, [] => acc
  | acc, c :: rest =>
    if c = strDot ∨ c = [] then normalize_dots acc rest
    else if c = strDotDot then normalize_dots acc.dropLast rest
    else normalize_dots (acc ++ [c]) rest

/-- decode_path (canonical_path.js lines 43-77). `none` models a thrown URIError. -/
def decode_path (nf : Str → Str) (path : Str) : Option (List Str) :=
  let path1 := if path.head? = some 47 then path.tail else path
  if path1 = [] then some []
  else
    (mapOpt (decode_component nf) (splitOnSlash path1)).map
      (fun components => normalize_dots [] (truncateAtIndex components))

/-- JS String.prototype.replace(/target/g, repl) for a single-character target. -/
def replaceAllCh (target : Nat) (repl : Str) (s : Str) : Str :=
  s.flatMap (fun ch => if ch = target then repl else [ch])

/-- encode_canonical_path_component (canonical_path.js lines 88-93):
    first '%' becomes '%25', then '/' becomes '%2F'. -/
def encode_canonical_path_component (c : Str) : Str :=
  replaceAllCh 47 [37, 50, 70] (replaceAllCh 37 [37, 50, 53] c)

/-- The rendering part of get_canonical_path (canonical_path.js lines 83-86):
    '/' + components.map(encode_canonical_path_component).join('/'). -/
def encode_canonical_path (cs : List Str) : Str :=
  47 :: joinSlash (cs.map encode_canonical_path_component)

/-- get_canonical_path (canonical_path.js lines 83-86). -/
def get_canonical_path (nf : Str → Str) (path : Str) : Option Str :=
  (decode_path nf path).map encode_canonical_path

/-- Per-character form of encode_canonical_path_component. -/
def eccCh (ch : Nat) : Str :=
  if ch = 37 then [37, 50, 53] else if ch = 47 then [37, 50, 70] else [ch]

theorem encode_canonical_path_component_eq_flatMap (c : Str) :
    encode_canonical_path_component c = c.flatMap eccCh := by
  unfold encode_canonical_path_component replaceAllCh
  rw [List.flatMap_assoc]
  apply List.flatMap_congr
  intro ch _
  by_cases h37 : ch = 37
  · subst h37
    simp [eccCh]
  · by_cases h47 : ch = 47
    · subst h47
      simp [eccCh]
    · simp [eccCh, h37, h47]

theorem PEnc_ecc (c : Str) : PEnc (encode_canonical_path_component c) c := by
  rw [encode_canonical_path_component_eq_flatMap]
  induction c with
  | nil => exact PEnc.nil
  | cons ch rest ih =>
    show PEnc (eccCh ch ++ rest.flatMap eccCh) (ch :: rest)
    unfold eccCh
    by_cases h37 : ch = 37
    · subst h37
      rw [if_pos rfl]
      exact PEnc.pc (c := 37) (by omega) ih
    · rw [if_neg h37]
      by_cases h47 : ch = 47
      · subst h47
        rw [if_pos rfl]
        exact PEnc.pc (c := 47) (by omega) ih
      · rw [if_neg h47]
        exact PEnc.raw h37 ih

theorem no_slash_ecc (c : Str) : 47 ∉ encode_canonical_path_component c := by
  rw [encode_canonical_path_component_eq_flatMap]
  intro hmem
  rcases List.mem_flatMap.mp hmem with ⟨ch, _, hch⟩
  unfold eccCh at hch
  by_cases h37 : ch = 37
  · simp [h37] at hch
  · by_cases h47 : ch = 47
    · simp [h37, h47] at hch
    · simp [h37, h47] at hch
      omega

theorem ecc_ne_nil (c : Str) (h : c ≠ []) : encode_canonical_path_component c ≠ [] := by
  rw [encode_canonical_path_component_eq_flatMap]
  cases c with
  | nil => exact absurd rfl h
  | cons ch rest =>
    show eccCh ch ++ rest.flatMap eccCh ≠ []
    unfold eccCh
    by_cases h37 : ch = 37
    · simp [h37]
    · by_cases h47 : ch = 47 <;> simp [h37, h47]

theorem splitOnSlash_ne_nil (l : Str) : splitOnSlash l ≠ [] := by
  induction l with
  | nil => simp [splitOnSlash]
  | cons c rest ih =>
    unfold splitOnSlash
    by_cases h : c = 47
    · simp [h]
    · rw [if_neg h]
      match hs : splitOnSlash rest with
      | [] => simp
      | h1 :: t => simp

theorem splitOnSlash_no_slash (x : Str) (hx : 47 ∉ x) : splitOnSlash x = [x] := by
  induction x with
  | nil => rfl
  | cons c rest ih =>
    have hc : c ≠ 47 := fun hc => hx (hc ▸ List.mem_cons_self c rest)
    have hr : 47 ∉ rest := fun hr => hx (List.mem_cons_of_mem c hr)
    unfold splitOnSlash
    rw [if_neg hc, ih hr]

theorem splitOnSlash_append_slash (x r : Str) (hx : 47 ∉ x) :
    splitOnSlash (x ++ 47 :: r) = x :: splitOnSlash r := by
  induction x with
  | nil =>
    show splitOnSlash (47 :: r) = [] :: splitOnSlash r
    conv_lhs => rw [splitOnSlash.eq_def]
    simp
  | cons c x' ih =>
    have hc : c ≠ 47 := fun hc => hx (hc ▸ List.mem_cons_self c x')
    have hr : 47 ∉ x' := fun hr => hx (List.mem_cons_of_mem c hr)
    show splitOnSlash (c :: (x' ++ 47 :: r)) = (c :: x') :: splitOnSlash r
    conv_lhs => rw [splitOnSlash.eq_def]
    simp only [if_neg hc, ih hr]

theorem splitOnSlash_joinSlash (xs : List Str) (hne : xs ≠ [])
    (hns : ∀ x ∈ xs, 47 ∉ x) : splitOnSlash (joinSlash xs) = xs := by
  induction xs with
  | nil => exact absurd rfl hne
  | cons x t ih =>
    cases t with
    | nil =>
      show splitOnSlash (joinSlash [x]) = [x]
      show splitOnSlash x = [x]
      exact splitOnSlash_no_slash x (hns x (List.mem_cons_self x []))
    | cons y t' =>
      show splitOnSlash (x ++ 47 :: joinSlash (y :: t')) = x :: y :: t'
      rw [splitOnSlash_append_slash x _ (hns x (List.mem_cons_self x _))]
      rw [ih (by simp) (fun z hz => hns z (List.mem_cons_of_mem x hz))]

theorem joinSlash_ne_nil (xs : List Str) (hne : xs ≠ []) (hhd : ∀ x ∈ xs, x ≠ []) :
    joinSlash xs ≠ [] := by
  cases xs with
  | nil => exact absurd rfl hne
  | cons x t =>
    cases t with
    | nil => exact hhd x (List.mem_cons_self x [])
    | cons y t' =>
      show x ++ 47 :: joinSlash (y :: t') ≠ []
      simp

theorem mapOpt_mem {f : α → Option β} {l : List α} {ys : List β}
    (h : mapOpt f l = some ys) : ∀ y ∈ ys, ∃ x ∈ l, f x = some y := by
  induction l generalizing ys with
  | nil =>
    unfold mapOpt at h
    cases h
    intro y hy
    cases hy
  | cons x xs ih =>
    unfold mapOpt at h
    match hf : f x, hm : mapOpt f xs with
    | some y0, some ys0 =>
      rw [hf, hm] at h
      cases h
      intro y hy
      rcases List.mem_cons.mp hy with rfl | hy'
      · exact ⟨x, List.mem_cons_self x xs, hf⟩
      · rcases ih hm y hy' with ⟨x', hx', hfx'⟩
        exact ⟨x', List.mem_cons_of_mem x hx', hfx'⟩
    | some y0, none => rw [hf, hm] at h; cases h
    | none, some ys0 => rw [hf, hm] at h; cases h
    | none, none => rw [hf, hm] at h; cases h

theorem mapOpt_of_pointwise {f : α → Option β} {g : β → α} {l : List β}
    (h : ∀ x ∈ l, f (g x) = some x) : mapOpt f (l.map g) = some l := by
  induction l with
  | nil => rfl
  | cons x xs ih =>
    show mapOpt f (g x :: xs.map g) = some (x :: xs)
    unfold mapOpt
    rw [h x (List.mem_cons_self x xs), ih (fun z hz => h z (List.mem_cons_of_mem x hz))]

theorem truncateAtIndex_eq_takeWhile (l : List Str) :
    truncateAtIndex l = l.takeWhile (fun c => c ≠ strIndex) := by
  induction l with
  | nil => rfl
  | cons x xs ih =>
    unfold truncateAtIndex indexOfStr
    by_cases hx : x = strIndex
    · rw [if_pos hx]
      simp [List.takeWhile_cons, hx]
    · rw [if_neg hx]
      simp only [List.takeWhile_cons]
      rw [decide_eq_true (by simpa using hx)]
      unfold truncateAtIndex at ih
      match hm : indexOfStr strIndex xs with
      | some i =>
        rw [hm] at ih
        have ih2 : List.take i xs = List.takeWhile (fun c => decide (c ≠ strIndex)) xs := ih
        simp [List.take_succ_cons, ih2]
      | none =>
        rw [hm] at ih
        have ih2 : xs = List.takeWhile (fun c => decide (c ≠ strIndex)) xs := ih
        simp
        simpa using ih2

theorem truncateAtIndex_mem {l : List Str} {x : Str} (h : x ∈ truncateAtIndex l) :
    x ∈ l ∧ x ≠ strIndex := by
  rw [truncateAtIndex_eq_takeWhile] at h
  refine ⟨(List.takeWhile_sublist _).subset h, ?_⟩
  have := List.mem_takeWhile_imp h
  simpa using this

theorem truncateAtIndex_of_no_index {l : List Str} (h : ∀ x ∈ l, x ≠ strIndex) :
    truncateAtIndex l = l := by
  rw [truncateAtIndex_eq_takeWhile]
  rw [List.takeWhile_eq_self_iff]
  intro x hx
  simpa using h x hx

theorem normalize_dots_id {l : List Str}
    (h : ∀ c ∈ l, c ≠ strDot ∧ c ≠ [] ∧ c ≠ strDotDot) :
    ∀ acc, normalize_dots acc l = acc ++ l := by
  induction l with
  | nil => intro acc; simp [normalize_dots]
  | cons c rest ih =>
    intro acc
    obtain ⟨h1, h2, h3⟩ := h c (List.mem_cons_self c rest)
    have hr := fun x hx => h x (List.mem_cons_of_mem c hx)
    unfold normalize_dots
    rw [if_neg (by tauto), if_neg h3, ih hr]
    simp

theorem normalize_dots_mem {P : Str → Prop} :
    ∀ (l acc : List Str), (∀ x ∈ acc, P x) →
      (∀ x ∈ l, x ≠ strDot → x ≠ [] → x ≠ strDotDot → P x) →
      ∀ x ∈ normalize_dots acc l, P x := by
  intro l
  induction l with
  | nil =>
    intro acc hacc _ x hx
    unfold normalize_dots at hx
    exact hacc x hx
  | cons c rest ih =>
    intro acc hacc hl x hx
    unfold normalize_dots at hx
    by_cases hc1 : c = strDot ∨ c = []
    · rw [if_pos hc1] at hx
      exact ih acc hacc (fun y hy => hl y (List.mem_cons_of_mem c hy)) x hx
    · rw [if_neg hc1] at hx
      by_cases hc2 : c = strDotDot
      · rw [if_pos hc2] at hx
        exact ih acc.dropLast (fun y hy => hacc y (List.mem_of_mem_dropLast hy))
          (fun y hy => hl y (List.mem_cons_of_mem c hy)) x hx
      · rw [if_neg hc2] at hx
        refine ih (acc ++ [c]) ?_ (fun y hy => hl y (List.mem_cons_of_mem c hy)) x hx
        intro y hy
        rcases List.mem_append.mp hy with hy' | hy'
        · exact hacc y hy'
        · rcases List.mem_singleton.mp hy' with rfl
          push_neg at hc1
          exact hl _ (List.mem_cons_self _ rest) hc1.1 hc1.2 hc2

/-- Structural facts about the output of decode_path: every kept component is an
    `nf`-image and is none of '.', '..', '', 'index'. -/
theorem decode_path_components {nf : Str → Str} {p : Str} {cs : List Str}
    (h : decode_path nf p = some cs) :
    ∀ c ∈ cs, (∃ y, c = nf y) ∧ c ≠ strDot ∧ c ≠ [] ∧ c ≠ strDotDot ∧ c ≠ strIndex := by
  unfold decode_path at h
  set path1 := if p.head? = some 47 then p.tail else p with hp1
  by_cases hemp : path1 = []
  · rw [if_pos hemp] at h
    cases h
    intro c hc
    cases hc
  · rw [if_neg hemp] at h
    rcases Option.map_eq_some'.mp h with ⟨comps, hm, hcs⟩
    subst hcs
    intro c hc
    have hP := normalize_dots_mem (P := fun c =>
        (∃ y, c = nf y) ∧ c ≠ strIndex)
      (truncateAtIndex comps) [] (by intro x hx; cases hx) ?_ c hc
    · have h2 := normalize_dots_mem (P := fun c =>
          c ≠ strDot ∧ c ≠ [] ∧ c ≠ strDotDot)
        (truncateAtIndex comps) [] (by intro x hx; cases hx)
        (by intro x _ a b d; exact ⟨a, b, d⟩) c hc
      exact ⟨hP.1, h2.1, h2.2.1, h2.2.2, hP.2⟩
    · intro x hx _ _ _
      obtain ⟨hxc, hxi⟩ := truncateAtIndex_mem hx
      rcases mapOpt_mem hm x hxc with ⟨x0, _, hx0⟩
      unfold decode_component at hx0
      rcases Option.map_eq_some'.mp hx0 with ⟨y, _, hy⟩
      exact ⟨⟨y, hy.symm⟩, hxi⟩

/-- C2: for every raw path on which the canonical parser succeeds, re-parsing the
    canonical rendering of the parse yields the same component sequence:
    parse(render(parse p)) = parse p, where parse is decode_path and render is the
    joining of encode_canonical_path_component ('%'→'%25', '/'→'%2F') used by
    get_canonical_path.  The NFC normalize `nf` is assumed idempotent. -/
theorem C2_parse_render_parse (nf : Str → Str) (hnf : ∀ s, nf (nf s) = nf s)
    (p : Str) (cs : List Str) (h : decode_path nf p = some cs) :
    get_canonical_path nf p = some (encode_canonical_path cs) ∧
      decode_path nf (encode_canonical_path cs) = some cs := by
  constructor
  · unfold get_canonical_path
    rw [h]
    rfl
  · have facts := decode_path_components h
    have hren : encode_canonical_path cs
        = 47 :: joinSlash (cs.map encode_canonical_path_component) := rfl
    rw [hren]
    unfold decode_path
    simp only [List.head?_cons, List.tail_cons, reduceIte]
    rcases cs with _ | ⟨c0, cs'⟩
    · simp [joinSlash]
    · have hne : (c0 :: cs').map encode_canonical_path_component ≠ [] := by simp
      have hnnil : ∀ x ∈ (c0 :: cs').map encode_canonical_path_component, x ≠ [] := by
        intro x hx
        rcases List.mem_map.mp hx with ⟨c, hc, rfl⟩
        exact ecc_ne_nil c (facts c hc).2.2.1
      have hJ : joinSlash ((c0 :: cs').map encode_canonical_path_component) ≠ [] :=
        joinSlash_ne_nil _ hne hnnil
      rw [if_neg hJ]
      have hsplit : splitOnSlash (joinSlash ((c0 :: cs').map encode_canonical_path_component))
          = (c0 :: cs').map encode_canonical_path_component := by
        refine splitOnSlash_joinSlash _ hne ?_
        intro x hx
        rcases List.mem_map.mp hx with ⟨c, _, rfl⟩
        exact no_slash_ecc c
      rw [hsplit]
      have hdec : ∀ c ∈ (c0 :: cs'),
          decode_component nf (encode_canonical_path_component c) = some c := by
        intro c hc
        unfold decode_component
        rw [PEnc_decode (PEnc_ecc c)]
        rcases (facts c hc).1 with ⟨y, rfl⟩
        simp [hnf y]
      rw [mapOpt_of_pointwise hdec]
      have htr : truncateAtIndex (c0 :: cs') = c0 :: cs' :=
        truncateAtIndex_of_no_index (fun x hx => (facts x hx).2.2.2.2)
      have hnd : normalize_dots [] (c0 :: cs') = c0 :: cs' := by
        have := normalize_dots_id (l := c0 :: cs')
          (fun c hc => ⟨(facts c hc).2.1, (facts c hc).2.2.1, (facts c hc).2.2.2.1⟩) []
        simpa using this
      simp [htr, hnd]

/-! ## Filename codec (encode_file_path_component / encode_filename,
    decode_file_path_component) -/

/-- The unsafe character class [<>:"|\\?*%\x00-\x1f\x7f/] of encode_unsafe_pass. -/
def unsafeChar (c : Nat) : Bool :=
  c == 60 || c == 62 || c == 58 || c == 34 || c == 124 || c == 92 ||
  c == 63 || c == 42 || c == 37 || decide (c ≤ 31) || c == 127 || c == 47

/-- encode_unsafe_pass (index.js lines 346-353; inlined in canonical_path.js line 104). -/
def encode_unsafe_pass (s : Str) : Str :=
  s.flatMap (fun c => if unsafeChar c then encode_char c else [c])

def strCon : Str := [99, 111, 110]
def strPrn : Str := [112, 114, 110]
def strAux : Str := [97, 117, 120]
def strNul : Str := [110, 117, 108]
def strCom : Str := [99, 111, 109]
def strLpt : Str := [108, 112, 116]

/-- Optional extension of the Windows reserved-name regex: empty or starting '.'. -/
def extOk (r : Str) : Bool := r = [] || r.head? == some 46

/-- Is the optional 4th character a digit 1-9 (the com[1-9] / lpt[1-9] cases)? -/
def digitAt (o : Option Nat) : Bool :=
  match o with
  | some d => decide (49 ≤ d ∧ d ≤ 57)
  | none => false

/-- Case-insensitive match of ^(con|prn|aux|nul|com[1-9]|lpt[1-9])(\..*)?$ against
    the original component; returns (matched reserved word in its original spelling,
    extension) like the JS match object. -/
def windowsReservedSplit (c : Str) : Option (Str × Str) :=
  if (strLower (c.take 3) = strCon ∨ strLower (c.take 3) = strPrn ∨
      strLower (c.take 3) = strAux ∨ strLower (c.take 3) = strNul) ∧ extOk (c.drop 3) then
    some (c.take 3, c.drop 3)
  else if (strLower (c.take 3) = strCom ∨ strLower (c.take 3) = strLpt) ∧
      digitAt (c.get? 3) ∧ extOk (c.drop 4) then
    some (c.take 4, c.drop 4)
  else none

/-- Reserved-word step of the encoder: splice the reserved word with its last
    character percent-encoded in front of the already-encoded extension (the
    getLastD default is unreachable, the matched word is never empty). -/
def reservedFix (c encoded : Str) : Str :=
  match windowsReservedSplit c with
  | some (w, _) => (w.dropLast ++ encode_char (w.getLastD 0)) ++ encoded.drop w.length
  | none => encoded

/-- Trailing step of the encoder: a final '.' or ' ' (never part of a %XX escape,
    whose last character is a hex digit) is percent-encoded. -/
def trailingFix (encoded : Str) : Str :=
  if encoded.getLast? = some 46 ∨ encoded.getLast? = some 32 then
    encoded.dropLast ++ encode_char (encoded.getLastD 0)
  else encoded

/-- encode_file_path_component (canonical_path.js lines 99-124), identical to
    encode_filename (index.js first variant lines 390-417): percent-encode unsafe
    characters, then the last character of a matched Windows reserved word, then a
    trailing '.' or space. -/
def encode_file_path_component (c : Str) : Str :=
  trailingFix (reservedFix c (encode_unsafe_pass c))

/-- encode_filename of index.js (first variant, lines 390-417) is the same algorithm. -/
def encode_filename : Str → Str := encode_file_path_component

/-- decode_file_path_component (canonical_path.js second variant, lines 257-259):
    plain decodeURIComponent. -/
def decode_file_path_component (x : Str) : Option Str := decodeURIComponentStr x

theorem unsafeChar_lt (c : Nat) (h : unsafeChar c = true) : c < 128 := by
  unfold unsafeChar at h
  simp at h
  omega

theorem not_unsafeChar_ne_pct (c : Nat) (h : unsafeChar c = false) : c ≠ 37 := by
  unfold unsafeChar at h
  simp at h
  omega

theorem alnum_not_unsafe (c : Nat)
    (h : (49 ≤ c ∧ c ≤ 57) ∨ (65 ≤ c ∧ c ≤ 90) ∨ (97 ≤ c ∧ c ≤ 122)) :
    unsafeChar c = false ∧ c < 128 := by
  unfold unsafeChar
  constructor
  · simp
    omega
  · omega

theorem PEnc_encode_unsafe_pass (c : Str) : PEnc (encode_unsafe_pass c) c := by
  induction c with
  | nil => exact PEnc.nil
  | cons ch rest ih =>
    show PEnc ((if unsafeChar ch then encode_char ch else [ch]) ++ encode_unsafe_pass rest)
      (ch :: rest)
    by_cases h : unsafeChar ch = true
    · rw [if_pos h, encode_char_eq_pct ch (by have := unsafeChar_lt ch h; omega)]
      exact PEnc.pc (unsafeChar_lt ch h) ih
    · rw [if_neg (by simpa using h)]
      exact PEnc.raw (not_unsafeChar_ne_pct ch (by simpa using h)) ih

theorem encode_unsafe_pass_append (a b : Str) :
    encode_unsafe_pass (a ++ b) = encode_unsafe_pass a ++ encode_unsafe_pass b := by
  unfold encode_unsafe_pass
  simp [List.flatMap_append]

theorem encode_unsafe_pass_id {w : Str} (h : ∀ ch ∈ w, unsafeChar ch = false) :
    encode_unsafe_pass w = w := by
  induction w with
  | nil => rfl
  | cons ch rest ih =>
    show (if unsafeChar ch then encode_char ch else [ch]) ++ encode_unsafe_pass rest = ch :: rest
    rw [if_neg (by simp [h ch (List.mem_cons_self ch rest)]),
      ih (fun x hx => h x (List.mem_cons_of_mem ch hx))]
    rfl

theorem PEnc_raw_all {w : Str} (h : ∀ ch ∈ w, ch ≠ 37) : PEnc w w := by
  induction w with
  | nil => exact PEnc.nil
  | cons ch rest ih =>
    exact PEnc.raw (h ch (List.mem_cons_self ch rest))
      (ih (fun x hx => h x (List.mem_cons_of_mem ch hx)))

theorem strLower_mem_bounds {w v : Str} (hl : strLower w = v)
    (hv : ∀ x ∈ v, 97 ≤ x ∧ x ≤ 122) :
    ∀ ch ∈ w, (65 ≤ ch ∧ ch ≤ 90) ∨ (97 ≤ ch ∧ ch ≤ 122) := by
  intro ch hch
  have hm : toLowerAsciiChar ch ∈ v := hl ▸ List.mem_map_of_mem _ hch
  have hb := hv _ hm
  unfold toLowerAsciiChar at hb
  by_cases h : 65 ≤ ch ∧ ch ≤ 90
  · left; exact h
  · rw [if_neg h] at hb
    right; exact hb

theorem windowsReservedSplit_spec {c w ext : Str}
    (h : windowsReservedSplit c = some (w, ext)) :
    c = w ++ ext ∧ w ≠ [] ∧
      ∀ ch ∈ w, (49 ≤ ch ∧ ch ≤ 57) ∨ (65 ≤ ch ∧ ch ≤ 90) ∨ (97 ≤ ch ∧ ch ≤ 122) := by
  unfold windowsReservedSplit at h
  split at h
  · next hcond =>
    injection h with h'
    injection h' with hw hext
    subst hw
    subst hext
    refine ⟨(List.take_append_drop 3 c).symm, ?_, ?_⟩
    · rcases hcond.1 with hl | hl | hl | hl <;>
        · intro hnil
          rw [hnil] at hl
          simp [strLower] at hl
          revert hl
          decide
    · intro ch hch
      rcases hcond.1 with hl | hl | hl | hl <;>
        exact Or.inr (strLower_mem_bounds hl (by decide) ch hch)
  · split at h
    case isFalse.isFalse => cases h
    next hcond =>
    injection h with h'
    injection h' with hw hext
    subst hw
    subst hext
    obtain ⟨hword, hdig, -⟩ := hcond
    obtain ⟨d, hd, hd1, hd2⟩ : ∃ d, c.get? 3 = some d ∧ 49 ≤ d ∧ d ≤ 57 := by
      unfold digitAt at hdig
      match hg : c.get? 3 with
      | some d =>
        rw [hg] at hdig
        simp at hdig
        exact ⟨d, rfl, hdig.1, hdig.2⟩
      | none => rw [hg] at hdig; cases hdig
    have htake : c.take 4 = c.take 3 ++ [d] := by
      rw [List.take_succ]
      congr 1
      rw [← List.get?_eq_getElem?, hd]
      rfl
    refine ⟨(List.take_append_drop 4 c).symm, ?_, ?_⟩
    · rw [htake]; simp
    · intro ch hch
      rw [htake] at hch
      rcases List.mem_append.mp hch with hch' | hch'
      · rcases hword with hl | hl <;>
          exact Or.inr (strLower_mem_bounds hl (by decide) ch hch')
      · rcases List.mem_singleton.mp hch' with rfl
        exact Or.inl ⟨hd1, hd2⟩

theorem PEnc_reservedFix (c : Str) : PEnc (reservedFix c (encode_unsafe_pass c)) c := by
  rcases hws : windowsReservedSplit c with - | ⟨w, ext⟩
  · unfold reservedFix
    rw [hws]
    exact PEnc_encode_unsafe_pass c
  · obtain ⟨hsplit, hne, hchars⟩ := windowsReservedSplit_spec hws
    obtain ⟨w', lc, rfl⟩ : ∃ w' lc, w = w' ++ [lc] := by
      rcases List.eq_nil_or_concat w with rfl | ⟨w', lc, rfl⟩
      · exact absurd rfl hne
      · exact ⟨w', lc, by simp [List.concat_eq_append]⟩
    unfold reservedFix
    rw [hws]
    show PEnc (((w' ++ [lc]).dropLast ++ encode_char ((w' ++ [lc]).getLastD 0)) ++
      (encode_unsafe_pass c).drop (w' ++ [lc]).length) c
    have hsafe : ∀ ch ∈ w' ++ [lc], unsafeChar ch = false ∧ ch < 128 := by
      intro ch hch
      exact alnum_not_unsafe ch (hchars ch hch)
    have hid : encode_unsafe_pass (w' ++ [lc]) = w' ++ [lc] :=
      encode_unsafe_pass_id (fun ch hch => (hsafe ch hch).1)
    have henc : encode_unsafe_pass c = (w' ++ [lc]) ++ encode_unsafe_pass ext := by
      rw [hsplit, encode_unsafe_pass_append, hid]
    have hdrop : (encode_unsafe_pass c).drop (w' ++ [lc]).length = encode_unsafe_pass ext := by
      rw [henc, List.drop_left]
    rw [hdrop, List.dropLast_concat, List.getLastD_concat]
    have hlc : lc < 128 := (hsafe lc (by simp)).2
    rw [encode_char_eq_pct lc (by omega)]
    have h1 : PEnc w' w' := PEnc_raw_all (fun ch hch =>
      not_unsafeChar_ne_pct ch (hsafe ch (List.mem_append_left _ hch)).1)
    have h2 : PEnc (pct lc ++ encode_unsafe_pass ext) (lc :: ext) :=
      PEnc.pc hlc (PEnc_encode_unsafe_pass ext)
    have := PEnc_append h1 h2
    rw [hsplit]
    simpa [List.append_assoc] using this

theorem pct_getLast? (c : Nat) : (pct c).getLast? = some (hexDigitU (c % 16)) := rfl

theorem hexDigitU_ne_dot_space (d : Nat) (h : d < 16) :
    hexDigitU d ≠ 46 ∧ hexDigitU d ≠ 32 := by
  unfold hexDigitU
  by_cases h10 : d < 10 <;> [rw [if_pos h10]; rw [if_neg h10]] <;> omega

theorem PEnc_trailing {R s : Str} (he : PEnc R s) :
    ∀ ch, R.getLast? = some ch → ch = 46 ∨ ch = 32 →
      PEnc (R.dropLast ++ encode_char ch) s := by
  induction he with
  | nil => intro ch h _; cases h
  | @raw c R' s' hne he' ih =>
    intro ch hlast hds
    cases R' with
    | nil =>
      cases he'
      simp at hlast
      subst hlast
      show PEnc ([c].dropLast ++ encode_char c) [c]
      rw [List.dropLast_single, encode_char_eq_pct c (by rcases hds with rfl | rfl <;> omega)]
      have : PEnc (pct c ++ []) [c] := PEnc.pc (by rcases hds with rfl | rfl <;> omega) PEnc.nil
      simpa using this
    | cons r1 R'' =>
      have hlast' : (r1 :: R'').getLast? = some ch := by
        rw [List.getLast?_cons_cons] at hlast
        exact hlast
      have hdl : (c :: r1 :: R'').dropLast = c :: (r1 :: R'').dropLast := rfl
      rw [hdl, List.cons_append]
      exact PEnc.raw hne (ih ch hlast' hds)
  | @pc c R' s' hlt he' ih =>
    intro ch hlast hds
    cases R' with
    | nil =>
      cases he'
      rw [List.append_nil] at hlast
      rw [pct_getLast?] at hlast
      injection hlast with hlast
      have := hexDigitU_ne_dot_space (c % 16) (Nat.mod_lt _ (by omega))
      rcases hds with rfl | rfl <;> omega
    | cons r1 R'' =>
      have hlast' : (r1 :: R'').getLast? = some ch := by
        rw [List.getLast?_append_of_ne_nil _ (by simp)] at hlast
        exact hlast
      have hdl : (pct c ++ r1 :: R'').dropLast = pct c ++ (r1 :: R'').dropLast :=
        List.dropLast_append_of_ne_nil _ (by simp)
      rw [hdl, List.append_assoc]
      exact PEnc.pc hlt (ih ch hlast' hds)

theorem PEnc_trailingFix {R s : Str} (he : PEnc R s) : PEnc (trailingFix R) s := by
  unfold trailingFix
  by_cases hc : R.getLast? = some 46 ∨ R.getLast? = some 32
  · rw [if_pos hc]
    obtain ⟨ch, hch, hds⟩ : ∃ ch, R.getLast? = some ch ∧ (ch = 46 ∨ ch = 32) := by
      rcases hc with h | h
      · exact ⟨46, h, Or.inl rfl⟩
      · exact ⟨32, h, Or.inr rfl⟩
    have hD : R.getLastD 0 = ch := by
      rw [List.getLastD_eq_getLast?, hch]
      rfl
    rw [hD]
    exact PEnc_trailing he ch hch hds
  · rw [if_neg hc]
    exact he

theorem PEnc_encode_file_path_component (c : Str) :
    PEnc (encode_file_path_component c) c :=
  PEnc_trailingFix (PEnc_reservedFix c)

/-- C3: for every component, percent-decoding inverts filesystem encoding:
    decode_file_path_component (encode_file_path_component c) = c.  (The
    collision resolver is a separate function, so no component here undergoes
    collision-induced re-encoding.) -/
theorem C3_decode_encode_component (c : Str) :
    decode_file_path_component (encode_file_path_component c) = some c :=
  PEnc_decode (PEnc_encode_file_path_component c)

theorem decode_component_ascii (nf : Str → Str)
    (hnf : ∀ s, (∀ c ∈ s, c < 128) → nf s = s) (x : Str)
    (hx : ∀ c ∈ x, c < 128) (hp : 37 ∉ x) : decode_component nf x = some x := by
  unfold decode_component
  rw [PEnc_decode (PEnc_raw_all (fun ch hch h => hp (h ▸ hch)))]
  simp [hnf x hx]

/-- C8: the spec's literal examples.  parse("/a/b/c/index/x/y") = ["a","b","c"]
    (the first 'index' fragment truncates the sequence), parse("/a/./b/../c") =
    ["a","c"], encode("prn") = "pr%6E", encode("file.") = "file%2E".  Strings are
    code-point lists; nf is NFC, assumed to be the identity on ASCII strings. -/
theorem C8_literal_examples (nf : Str → Str)
    (hnf : ∀ s, (∀ c ∈ s, c < 128) → nf s = s) :
    decode_path nf [47, 97, 47, 98, 47, 99, 47, 105, 110, 100, 101, 120, 47, 120, 47, 121]
        = some [[97], [98], [99]] ∧
    decode_path nf [47, 97, 47, 46, 47, 98, 47, 46, 46, 47, 99] = some [[97], [99]] ∧
    encode_filename [112, 114, 110] = [112, 114, 37, 54, 69] ∧
    encode_filename [102, 105, 108, 101, 46] = [102, 105, 108, 101, 37, 50, 69] := by
  have ha := decode_component_ascii nf hnf [97] (by decide) (by decide)
  have hb := decode_component_ascii nf hnf [98] (by decide) (by decide)
  have hc := decode_component_ascii nf hnf [99] (by decide) (by decide)
  have hidx := decode_component_ascii nf hnf [105, 110, 100, 101, 120] (by decide) (by decide)
  have hx := decode_component_ascii nf hnf [120] (by decide) (by decide)
  have hy := decode_component_ascii nf hnf [121] (by decide) (by decide)
  have hdot := decode_component_ascii nf hnf [46] (by decide) (by decide)
  have hdd := decode_component_ascii nf hnf [46, 46] (by decide) (by decide)
  refine ⟨?_, ?_, by decide, by decide⟩
  · have hsp : splitOnSlash [97, 47, 98, 47, 99, 47, 105, 110, 100, 101, 120, 47, 120, 47, 121]
        = [[97], [98], [99], [105, 110, 100, 101, 120], [120], [121]] := by decide
    unfold decode_path
    simp only [List.head?_cons, List.tail_cons, reduceIte, hsp]
    have hmo : mapOpt (decode_component nf)
        [[97], [98], [99], [105, 110, 100, 101, 120], [120], [121]]
        = some [[97], [98], [99], [105, 110, 100, 101, 120], [120], [121]] := by
      simp [mapOpt, ha, hb, hc, hidx, hx, hy]
    rw [hmo]
    decide
  · have hsp : splitOnSlash [97, 47, 46, 47, 98, 47, 46, 46, 47, 99]
        = [[97], [46], [98], [46, 46], [99]] := by decide
    unfold decode_path
    simp only [List.head?_cons, List.tail_cons, reduceIte, hsp]
    have hmo : mapOpt (decode_component nf) [[97], [46], [98], [46, 46], [99]]
        = some [[97], [46], [98], [46, 46], [99]] := by
      simp [mapOpt, ha, hb, hc, hdot, hdd]
    rw [hmo]
    decide

theorem C8_literal_examples_witness :
    decode_path id [47, 97, 47, 98, 47, 99, 47, 105, 110, 100, 101, 120, 47, 120, 47, 121]
        = some [[97], [98], [99]] ∧
    decode_path id [47, 97, 47, 46, 47, 98, 47, 46, 46, 47, 99] = some [[97], [99]] ∧
    encode_filename [112, 114, 110] = [112, 114, 37, 54, 69] ∧
    encode_filename [102, 105, 108, 101, 46] = [102, 105, 108, 101, 37, 50, 69] :=
  C8_literal_examples id (fun _ _ => rfl)

theorem C2_parse_render_parse_witness :
    decode_path id [47, 97, 37, 50, 70, 98, 47, 46, 47, 99] = some [[97, 47, 98], [99]] ∧
    (get_canonical_path id [47, 97, 37, 50, 70, 98, 47, 46, 47, 99]
        = some (encode_canonical_path [[97, 47, 98], [99]]) ∧
      decode_path id (encode_canonical_path [[97, 47, 98], [99]]) = some [[97, 47, 98], [99]]) :=
  ⟨by decide, C2_parse_render_parse id (fun _ => rfl) _ _ (by decide)⟩

/-! ## Case-collision resolver (encode_to_avoid_icase_collision,
    canonical_path.js lines 130-162) -/

/-- The /[a-zA-Z]/ test. -/
def isAsciiLetter (c : Nat) : Bool := decide ((65 ≤ c ∧ c ≤ 90) ∨ (97 ≤ c ∧ c ≤ 122))

/-- The inner for-loop of encode_to_avoid_icase_collision: scan right to left
    (argument is current index + 1, so 0 means the loop ended).  When the position
    two back holds '%', the current character is the second hex digit of a %XX
    escape: skip the whole escape (i -= 2 and the loop decrement).  On the first
    ASCII letter found, return the component with exactly that letter
    percent-encoded; `none` means no eligible letter remains. -/
def findLetterAux (c : Str) : Nat → Option Str
  | 0 => none
  | 1 =>
    match c.get? 0 with
    | some ch =>
      if isAsciiLetter ch then some (c.take 0 ++ encode_char ch ++ c.drop 1) else none
    | none => none
  | 2 =>
    match c.get? 1 with
    | some ch =>
      if isAsciiLetter ch then some (c.take 1 ++ encode_char ch ++ c.drop 2)
      else findLetterAux c 1
    | none => findLetterAux c 1
  | n + 3 =>
    if c.get? n = some 37 then findLetterAux c n
    else
      match c.get? (n + 2) with
      | some ch =>
        if isAsciiLetter ch then some (c.take (n + 2) ++ encode_char ch ++ c.drop (n + 3))
        else findLetterAux c (n + 2)
      | none => findLetterAux c (n + 2)

/-- The scan starts at the last index. -/
def findLetter (c : Str) : Option Str := findLetterAux c c.length

/-- Outcome of the resolver: a returned name or the 'Should never happen' throw. -/
inductive RRes where
  | ok : Str → RRes
  | threw : RRes
  deriving DecidableEq, Repr

/-- The while loop of encode_to_avoid_icase_collision, fuelled; `none` is fuel
    exhaustion, proved unreachable for the fuel used by the wrapper below. -/
def eaiLoop (S : List Str) : Nat → Str → Option RRes
  | 0, _ => none
  | fuel + 1, c =>
    if strLower c ∈ S then
      match findLetter c with
      | some c' => eaiLoop S fuel c'
      | none => some RRes.threw
    else some (RRes.ok c)

/-- encode_to_avoid_icase_collision (canonical_path.js lines 130-162); the sibling
    set (a JS Set of lowercased names) is a list, and the fuel S.length + 1 is
    sufficient by eaiLoop_total. -/
def encode_to_avoid_icase_collision (c : Str) (S : List Str) : Option RRes :=
  eaiLoop S (S.length + 1) c

/-- One collision-driven re-encoding step of the resolver. -/
inductive EaiStep (S : List Str) : Str → Str → Prop where
  | mk {c c' : Str} : strLower c ∈ S → findLetter c = some c' → EaiStep S c c'

/-- Iterated resolver steps. -/
inductive EaiReach (S : List Str) : Str → Str → Prop where
  | refl (c : Str) : EaiReach S c c
  | step {c c' c'' : Str} : EaiStep S c c' → EaiReach S c' c'' → EaiReach S c c''

theorem isAsciiLetter_lt (ch : Nat) (h : isAsciiLetter ch = true) : ch < 128 := by
  unfold isAsciiLetter at h
  simp at h
  omega

theorem spliceLetter_length {c : Str} {i ch : Nat} (hg : c.get? i = some ch)
    (hl : isAsciiLetter ch = true) :
    (c.take i ++ encode_char ch ++ c.drop (i + 1)).length = c.length + 2 := by
  have hi : i < c.length := by
    rw [List.get?_eq_getElem?] at hg
    exact (List.getElem?_eq_some.mp hg).1
  have hec : encode_char ch = pct ch :=
    encode_char_eq_pct ch (by have := isAsciiLetter_lt ch hl; omega)
  rw [hec]
  simp [pct, List.length_take, List.length_drop]
  omega

theorem findLetterAux_length {c : Str} :
    ∀ {n : Nat} {c' : Str}, findLetterAux c n = some c' → c'.length = c.length + 2 := by
  intro n
  induction n using Nat.strong_induction_on with
  | _ n ih =>
    intro c' h
    match n with
    | 0 => cases h
    | 1 =>
      rw [findLetterAux] at h
      split at h
      · split at h
        · cases h
          exact spliceLetter_length (by assumption) (by assumption)
        · cases h
      · cases h
    | 2 =>
      rw [findLetterAux] at h
      split at h
      · split at h
        · cases h
          exact spliceLetter_length (by assumption) (by assumption)
        · exact ih 1 (by omega) h
      · exact ih 1 (by omega) h
    | m + 3 =>
      rw [findLetterAux] at h
      split at h
      · exact ih m (by omega) h
      · split at h
        · split at h
          · cases h
            exact spliceLetter_length (by assumption) (by assumption)
          · exact ih (m + 2) (by omega) h
        · exact ih (m + 2) (by omega) h

theorem findLetter_length {c c' : Str} (h : findLetter c = some c') :
    c'.length = c.length + 2 := findLetterAux_length h

theorem strLower_length (c : Str) : (strLower c).length = c.length := by
  unfold strLower
  exact List.length_map c toLowerAsciiChar

theorem filter_length_mono {p q : α → Bool} {l : List α}
    (himp : ∀ x, q x = true → p x = true) :
    (l.filter q).length ≤ (l.filter p).length := by
  induction l with
  | nil => simp
  | cons x xs ih =>
    by_cases hq : q x = true
    · rw [List.filter_cons_of_pos hq, List.filter_cons_of_pos (himp x hq)]
      simpa using ih
    · rw [List.filter_cons_of_neg (by simpa using hq)]
      by_cases hp : p x = true
      · rw [List.filter_cons_of_pos hp]
        simp
        omega
      · rw [List.filter_cons_of_neg (by simpa using hp)]
        exact ih

theorem filter_length_lt {p q : α → Bool} {l : List α}
    (himp : ∀ x, q x = true → p x = true)
    {a : α} (ha : a ∈ l) (hpa : p a = true) (hqa : q a = false) :
    (l.filter q).length < (l.filter p).length := by
  induction l with
  | nil => cases ha
  | cons x xs ih =>
    rcases List.mem_cons.mp ha with rfl | ha'
    · rw [List.filter_cons_of_pos hpa, List.filter_cons_of_neg (by simp [hqa])]
      have := filter_length_mono (l := xs) himp
      simp
      omega
    · have hlt := ih ha'
      by_cases hq : q x = true
      · rw [List.filter_cons_of_pos hq, List.filter_cons_of_pos (himp x hq)]
        simpa using hlt
      · rw [List.filter_cons_of_neg (by simpa using hq)]
        by_cases hp : p x = true
        · rw [List.filter_cons_of_pos hp]
          simp
          omega
        · rw [List.filter_cons_of_neg (by simpa using hp)]
          exact hlt

theorem eaiLoop_notmem {S : List Str} {c : Str} (h : strLower c ∉ S) (fuel : Nat) :
    eaiLoop S (fuel + 1) c = some (RRes.ok c) := by
  unfold eaiLoop
  rw [if_neg h]

theorem eaiLoop_throw {S : List Str} {c : Str} (hmem : strLower c ∈ S)
    (hf : findLetter c = none) (fuel : Nat) :
    eaiLoop S (fuel + 1) c = some RRes.threw := by
  unfold eaiLoop
  rw [if_pos hmem, hf]

theorem eaiLoop_step {S : List Str} {c c' : Str} (hmem : strLower c ∈ S)
    (hf : findLetter c = some c') (fuel : Nat) :
    eaiLoop S (fuel + 1) c = eaiLoop S fuel c' := by
  conv_lhs => rw [eaiLoop.eq_def]
  simp only [if_pos hmem, hf]

/-- Fuel sufficiency: the loop terminates within one plus the number of sibling
    names at least as long as the candidate (each collision consumes one sibling
    of exactly the candidate's length, and candidates strictly grow). -/
theorem eaiLoop_total (S : List Str) :
    ∀ (k : Nat) (c : Str),
      (S.filter (fun x => decide (c.length ≤ x.length))).length < k →
      ∃ r, eaiLoop S k c = some r := by
  intro k
  induction k with
  | zero => intro c h; omega
  | succ k ih =>
    intro c hk
    by_cases hmem : strLower c ∈ S
    · match hf : findLetter c with
      | some c' =>
        rw [eaiLoop_step hmem hf]
        apply ih
        have hlen : c'.length = c.length + 2 := findLetter_length hf
        have hlt := filter_length_lt
          (p := fun x => decide (c.length ≤ x.length))
          (q := fun x => decide (c'.length ≤ x.length))
          (fun x hx => by
            simp at hx ⊢
            omega)
          hmem
          (by simp [strLower_length])
          (by simp [strLower_length]; omega)
        omega
      | none => exact ⟨RRes.threw, eaiLoop_throw hmem hf k⟩
    · exact ⟨RRes.ok c, eaiLoop_notmem hmem k⟩

theorem eai_total (c : Str) (S : List Str) :
    ∃ r, encode_to_avoid_icase_collision c S = some r := by
  apply eaiLoop_total
  have := List.length_filter_le (fun x => decide (c.length ≤ x.length)) S
  omega

theorem eaiLoop_ok_spec {S : List Str} :
    ∀ {k : Nat} {c r : Str}, eaiLoop S k c = some (RRes.ok r) →
      EaiReach S c r ∧ strLower r ∉ S := by
  intro k
  induction k with
  | zero => intro c r h; cases h
  | succ k ih =>
    intro c r h
    by_cases hmem : strLower c ∈ S
    · match hf : findLetter c with
      | some c' =>
        rw [eaiLoop_step hmem hf] at h
        obtain ⟨hr, hn⟩ := ih h
        exact ⟨EaiReach.step (EaiStep.mk hmem hf) hr, hn⟩
      | none =>
        rw [eaiLoop_throw hmem hf] at h
        cases h
    · rw [eaiLoop_notmem hmem] at h
      injection h with h'
      injection h' with h''
      subst h''
      exact ⟨EaiReach.refl c, hmem⟩

theorem eaiLoop_threw_spec {S : List Str} :
    ∀ {k : Nat} {c : Str}, eaiLoop S k c = some RRes.threw →
      ∃ c', EaiReach S c c' ∧ strLower c' ∈ S ∧ findLetter c' = none := by
  intro k
  induction k with
  | zero => intro c h; cases h
  | succ k ih =>
    intro c h
    by_cases hmem : strLower c ∈ S
    · match hf : findLetter c with
      | some c' =>
        rw [eaiLoop_step hmem hf] at h
        obtain ⟨c'', hr, hm, hn⟩ := ih h
        exact ⟨c'', EaiReach.step (EaiStep.mk hmem hf) hr, hm, hn⟩
      | none => exact ⟨c, EaiReach.refl c, hmem, hf⟩
    · rw [eaiLoop_notmem hmem] at h
      cases h

theorem eaiLoop_of_reach_bad {S : List Str} {c c' : Str}
    (hr : EaiReach S c c') (hm : strLower c' ∈ S) (hn : findLetter c' = none) :
    ∀ k, (S.filter (fun x => decide (c.length ≤ x.length))).length < k →
      eaiLoop S k c = some RRes.threw := by
  induction hr with
  | refl c0 =>
    intro k hk
    obtain ⟨k', rfl⟩ : ∃ k', k = k' + 1 := ⟨k - 1, by omega⟩
    exact eaiLoop_throw hm hn k'
  | @step c0 c1 c2 hstep _ ih =>
    intro k hk
    obtain ⟨hmem0, hf0⟩ : strLower c0 ∈ S ∧ findLetter c0 = some c1 := by
      cases hstep with
      | mk a b => exact ⟨a, b⟩
    obtain ⟨k', rfl⟩ : ∃ k', k = k' + 1 := ⟨k - 1, by omega⟩
    rw [eaiLoop_step hmem0 hf0]
    refine ih hm hn k' ?_
    have hlen : c1.length = c0.length + 2 := findLetter_length hf0
    have hlt := filter_length_lt
      (p := fun x => decide (c0.length ≤ x.length))
      (q := fun x => decide (c1.length ≤ x.length))
      (fun x hx => by
        simp at hx ⊢
        omega)
      hmem0
      (by simp [strLower_length])
      (by simp [strLower_length]; omega)
    omega

/-- C4: for every candidate encoded component and every set of lowercased sibling
    names, the resolver (fuelled with a provably sufficient fuel) returns a result:
    on normal return the name is obtained by iterated single-letter re-encoding
    steps (as implemented by findLetter: right-to-left scan skipping the second
    hex digit of %XX escapes detected by the '%' two positions back) and its
    lowercase form is not in the set; it throws exactly when iteration reaches a
    colliding candidate with no eligible letter left. -/
theorem C4_case_collision_resolver (c : Str) (S : List Str) :
    ∃ res, encode_to_avoid_icase_collision c S = some res ∧
      (∀ r, res = RRes.ok r → EaiReach S c r ∧ strLower r ∉ S) ∧
      (res = RRes.threw ↔
        ∃ c', EaiReach S c c' ∧ strLower c' ∈ S ∧ findLetter c' = none) := by
  obtain ⟨res, hres⟩ := eai_total c S
  refine ⟨res, hres, ?_, ?_, ?_⟩
  · intro r hr
    subst hr
    exact eaiLoop_ok_spec hres
  · intro ht
    subst ht
    exact eaiLoop_threw_spec hres
  · rintro ⟨c', hr, hm, hn⟩
    have h1 := eaiLoop_of_reach_bad hr hm hn (S.length + 1)
      (by have := List.length_filter_le (fun x => decide (c.length ≤ x.length)) S; omega)
    have h2 : encode_to_avoid_icase_collision c S = some RRes.threw := h1
    rw [hres] at h2
    exact Option.some_inj.mp h2

/-! ## Database layer (index.js, current variant lines 422-1150).

The asynchronous db.read / db.write / db.delete are embedded as big-step state
transformers.  A node's promise_chain is its resolved/rejected value (`none` =
resolved; `some e` = rejected with e: a then-chain on a rejected promise skips
its callback and propagates the rejection, so the value is all that matters).
A node's directory_promise is `none` (a file), `some none` (a resolved directory
promise) or `some (some e)` (a rejected mkdir/conversion promise).  The
filesystem is a map from paths (lists of encoded names under base_dir) to
contents, with a fault set modelling I/O errors injected by the environment. -/

/-- Errors: an injected I/O fault at a path, a missing file, a URIError from
    decode_path, or the resolver's 'Should never happen' throw. -/
inductive Err where
  | io : List Str → Err
  | enoent : List Str → Err
  | parse : Err
  | invariant : Err
  deriving DecidableEq, Repr

/-- On-disk path relative to base_dir: the list of encoded path components. -/
abbrev FPath := List Str

def lookupA [DecidableEq κ] : List (κ × β) → κ → Option β
  | [], _ => none
  | (k', v') :: t, k => if k' = k then some v' else lookupA t k

def insertA [DecidableEq κ] : List (κ × β) → κ → β → List (κ × β)
  | [], k, v => [(k, v)]
  | (k', v') :: t, k, v => if k' = k then (k, v) :: t else (k', v') :: insertA t k v

def eraseA [DecidableEq κ] (l : List (κ × β)) (k : κ) : List (κ × β) :=
  l.filter (fun p => p.1 ≠ k)

/-- JS Set.add. -/
def insertL [DecidableEq κ] (l : List κ) (k : κ) : List κ := if k ∈ l then l else l ++ [k]

/-- JS Set.delete. -/
def eraseL [DecidableEq κ] (l : List κ) (k : κ) : List κ := l.filter (fun x => x ≠ k)

structure FS where
  files : List (FPath × Str)
  mtimes : List (FPath × Nat)
  clock : Nat
  dirs : List FPath
  fail : List FPath
  ro : List FPath
  deriving Repr

/-- fs.readFile: faults and missing files reject. -/
def fsRead (fs : FS) (p : FPath) : Except Err Str :=
  if p ∈ fs.fail then .error (.io p)
  else
    match lookupA fs.files p with
    | some c => .ok c
    | none => .error (.enoent p)

/-- fs.writeFile: creates or replaces the file, advancing its mtime. -/
def fsWrite (fs : FS) (p : FPath) (c : Str) : Except Err FS :=
  if p ∈ fs.fail then .error (.io p)
  else .ok { fs with
    files := insertA fs.files p c,
    mtimes := insertA fs.mtimes p fs.clock,
    clock := fs.clock + 1 }

/-- fs.unlink. -/
def fsUnlink (fs : FS) (p : FPath) : Except Err FS :=
  if p ∈ fs.fail then .error (.io p)
  else
    match lookupA fs.files p with
    | some _ => .ok { fs with files := eraseA fs.files p, mtimes := eraseA fs.mtimes p }
    | none => .error (.enoent p)

/-- fs.mkdir with recursive: true (no error on existing directories). -/
def fsMkdir (fs : FS) (p : FPath) : Except Err FS :=
  if p ∈ fs.fail then .error (.io p)
  else .ok { fs with dirs := insertL fs.dirs p }

/-- fs.stat, used only for mtimeNs here. -/
def fsStat (fs : FS) (p : FPath) : Except Err Nat :=
  if p ∈ fs.fail then .error (.io p)
  else
    match lookupA fs.mtimes p with
    | some t => .ok t
    | none => .error (.enoent p)

/-- is_read_only (index.js lines 1089-1098); stat errors yield false. -/
def fsIsRO (fs : FS) (p : FPath) : Bool := p ∈ fs.ro

/-- set_read_only (index.js lines 1100-1118), modelled as total. -/
def fsSetRO (fs : FS) (p : FPath) (v : Bool) : FS :=
  if v then { fs with ro := insertL fs.ro p } else { fs with ro := eraseL fs.ro p }

/-- A node of the mirror tree: file_path_component, component_to_node,
    icomponent_to_ifile_path_components, promise_chain value, directory_promise
    value (create_node, index.js lines 1120-1128). -/
inductive Node where
  | mk : Str → List (Str × Node) → List (Str × List Str) → Option Err → Option (Option Err) → Node

def Node.fpc : Node → Str
  | .mk f _ _ _ _ => f

def Node.children : Node → List (Str × Node)
  | .mk _ c _ _ _ => c

def Node.icomp : Node → List (Str × List Str)
  | .mk _ _ i _ _ => i

def Node.chain : Node → Option Err
  | .mk _ _ _ q _ => q

def Node.dirp : Node → Option (Option Err)
  | .mk _ _ _ _ d => d

def create_node (fpc : Str) : Node := .mk fpc [] [] none none

def Node.setChild : Node → Str → Node → Node
  | .mk f c i q d, k, v => .mk f (insertA c k v) i q d

def Node.delChild : Node → Str → Node
  | .mk f c i q d, k => .mk f (eraseA c k) i q d

def Node.setIcomp : Node → Str → List Str → Node
  | .mk f c i q d, k, v => .mk f c (insertA i k v) q d

def Node.delIcomp : Node → Str → Node
  | .mk f c i q d, k => .mk f c (eraseA i k) q d

def Node.setChain : Node → Option Err → Node
  | .mk f c i _ d, q => .mk f c i q d

def Node.setDirp : Node → Option (Option Err) → Node
  | .mk f c i q _, d => .mk f c i q d

/-- The state of one db instance apart from the tree: filesystem, the meta
    store's mtime_ns records keyed by canonical path, and anticipated_events. -/
structure Ctx where
  fs : FS
  meta : List (Str × Nat)
  antic : List Str
  deriving Repr

structure DB where
  root : Node
  ctx : Ctx
  caseSensitive : Bool

/-- db.read (index.js lines 763-787): walk the tree (missing node resolves null,
    a rejected directory promise rejects), then the chained read, whose own I/O
    errors are caught and resolve null.  The only mutation the real code makes is
    replacing promise_chain by an equivalently-resolved promise, so the model is
    a pure function. -/
def readWalk : Node → FS → FPath → List Str → Except Err (Option Str)
  | n, fs, fp, [] =>
    let tgt := if n.dirp ≠ none then fp ++ [strIndex] else fp
    match n.chain with
    | some e => .error e
    | none =>
      match fsRead fs tgt with
      | .ok c => .ok (some c)
      | .error _ => .ok none
  | n, fs, fp, comp :: rest =>
    match lookupA n.children comp with
    | none => .ok none
    | some child =>
      match child.dirp with
      | some (some e) => .error e
      | _ => readWalk child fs (fp ++ [child.fpc]) rest

/-- The chained write at the terminal node (index.js lines 928-962): read-only
    dance, anticipated_events.add, writeFile (a failure rejects the chain and the
    caller), stat + mark_as_seen (meta delete if stat fails), restore read-only.
    The setTimeout that later clears anticipated_events is outside the model. -/
def writeOp (content canonical : Str) (n : Node) (ctx : Ctx) (fp : FPath) :
    Node × Ctx × Except Err Unit :=
  let tgt := if n.dirp ≠ none then fp ++ [strIndex] else fp
  match n.chain with
  | some e => (n, ctx, .error e)
  | none =>
    let wasRO := fsIsRO ctx.fs tgt
    let fs1 := if wasRO then fsSetRO ctx.fs tgt false else ctx.fs
    let ant1 := insertL ctx.antic canonical
    match fsWrite fs1 tgt content with
    | .error e => (n.setChain (some e), { ctx with fs := fs1, antic := ant1 }, .error e)
    | .ok fs2 =>
      let sm :=
        match fsStat fs2 tgt with
        | .ok mt => (fs2, insertA ctx.meta canonical mt)
        | .error _ => (fs2, eraseA ctx.meta canonical)
      let fs4 := if wasRO then fsSetRO sm.1 tgt true else sm.1
      (n.setChain none, { fs := fs4, meta := sm.2, antic := ant1 }, .ok ())

/-- The file-to-directory conversion body (index.js lines 909-917): read existing
    content, delete the file, create the directory, write the content to the
    index child; the filesystem keeps any partial effects of a failure. -/
def convertFs (fs : FS) (dfp : FPath) : FS × Option Err :=
  match fsRead fs dfp with
  | .error e => (fs, some e)
  | .ok old =>
    match fsUnlink fs dfp with
    | .error e => (fs, some e)
    | .ok fs1 =>
      match fsMkdir fs1 dfp with
      | .error e => (fs1, some e)
      | .ok fs2 =>
        match fsWrite fs2 (dfp ++ [strIndex]) old with
        | .error e => (fs2, some e)
        | .ok fs3 => (fs3, none)

/-- The walk of db.write (index.js lines 862-963).  Missing nodes are created
    (with collision resolution against the sibling set when the filesystem is
    case-insensitive; intermediate directories are made on disk before the walk
    proceeds); an existing file ancestor is converted to a directory; rejected
    directory promises reject the write; the terminal runs writeOp. -/
def writeWalk (cS : Bool) (content canonical : Str) :
    Node → Ctx → FPath → List Str → Node × Ctx × Except Err Unit
  | n, ctx, fp, [] => writeOp content canonical n ctx fp
  | n, ctx, fp, comp :: rest =>
    match lookupA n.children comp with
    | none =>
      let fpc0 := encode_file_path_component comp
      let icomp := strLower comp
      let iset := if cS then [] else (lookupA n.icomp icomp).getD []
      match (if cS then some (RRes.ok fpc0) else encode_to_avoid_icase_collision fpc0 iset) with
      | some (RRes.ok fpc) =>
        let n1 := if cS then n else n.setIcomp icomp (insertL iset (strLower fpc))
        let newNode := create_node fpc
        let n2 := n1.setChild comp newNode
        let fp' := fp ++ [fpc]
        if rest = [] then
          let r := writeWalk cS content canonical newNode ctx fp' rest
          (n2.setChild comp r.1, r.2.1, r.2.2)
        else
          match fsMkdir ctx.fs fp' with
          | .error e => (n2.setChild comp (newNode.setDirp (some (some e))), ctx, .error e)
          | .ok fs1 =>
            let r := writeWalk cS content canonical (newNode.setDirp (some none))
              { ctx with fs := fs1 } fp' rest
            (n2.setChild comp r.1, r.2.1, r.2.2)
      | _ =>
        -- the resolver threw; the icomp entry made before the throw remains
        let n1 := if cS then n else n.setIcomp icomp iset
        (n1, ctx, .error .invariant)
    | some child =>
      if rest ≠ [] ∧ child.dirp = none then
        let dfp := fp ++ [child.fpc]
        match child.chain with
        | some e => (n.setChild comp (child.setDirp (some (some e))), ctx, .error e)
        | none =>
          match convertFs ctx.fs dfp with
          | (fs1, some e) =>
            (n.setChild comp (child.setDirp (some (some e))), { ctx with fs := fs1 }, .error e)
          | (fs1, none) =>
            let r := writeWalk cS content canonical (child.setDirp (some none))
              { ctx with fs := fs1 } dfp rest
            (n.setChild comp r.1, r.2.1, r.2.2)
      else
        match child.dirp with
        | some (some e) => (n, ctx, .error e)
        | _ =>
          let r := writeWalk cS content canonical child ctx (fp ++ [child.fpc]) rest
          (n.setChild comp r.1, r.2.1, r.2.2)

/-- The tree removal inside db.delete's chained operation (index.js lines
    827-843): drop the File node from the parent's child map and, on a
    case-insensitive filesystem, from the case-fold index. -/
def removeChildEntry (cS : Bool) (n : Node) (comp : Str) (child : Node) : Node :=
  let n' := n.delChild comp
  if cS then n'
  else
    let ikey := strLower comp
    match lookupA n.icomp ikey with
    | some iset =>
      let iset' := eraseL iset (strLower child.fpc)
      if iset' = [] then n'.delIcomp ikey else n'.setIcomp ikey iset'
    | none => n'

/-- The walk plus chained operation of db.delete (index.js lines 793-856).  The
    [] case is the root target (parent_node stays null, so no tree removal).  At
    the terminal, a File node is removed from the parent's child map and the
    case-fold index before the unlink is attempted; unlink errors are caught and
    resolve false. -/
def delWalk (cS : Bool) (canonical : Str) :
    Node → Ctx → FPath → List Str → Node × Ctx × Except Err Bool
  | n, ctx, fp, [] =>
    let tgt := if n.dirp ≠ none then fp ++ [strIndex] else fp
    match n.chain with
    | some e => (n, ctx, .error e)
    | none =>
      let fs1 := if fsIsRO ctx.fs tgt then fsSetRO ctx.fs tgt false else ctx.fs
      match fsUnlink fs1 tgt with
      | .error _ => (n.setChain none, { ctx with fs := fs1 }, .ok false)
      | .ok fs2 =>
        (n.setChain none, { ctx with fs := fs2, meta := eraseA ctx.meta canonical }, .ok true)
  | n, ctx, fp, comp :: rest =>
    match lookupA n.children comp with
    | none => (n, ctx, .ok false)
    | some child =>
      match child.dirp with
      | some (some e) => (n, ctx, .error e)
      | _ =>
        if rest = [] then
          let tgt := (fp ++ [child.fpc]) ++ (if child.dirp ≠ none then [strIndex] else [])
          match child.chain with
          | some e => (n.setChild comp child, ctx, .error e)
          | none =>
            let fs1 := if fsIsRO ctx.fs tgt then fsSetRO ctx.fs tgt false else ctx.fs
            let n1 :=
              if child.dirp = none then removeChildEntry cS n comp child
              else n.setChild comp (child.setChain none)
            match fsUnlink fs1 tgt with
            | .error _ => (n1, { ctx with fs := fs1 }, .ok false)
            | .ok fs2 =>
              (n1, { ctx with fs := fs2, meta := eraseA ctx.meta canonical }, .ok true)
        else
          let r := delWalk cS canonical child ctx (fp ++ [child.fpc]) rest
          (n.setChild comp r.1, r.2.1, r.2.2)

/-- db.read. -/
def dbRead (nf : Str → Str) (db : DB) (path : Str) : Except Err (Option Str) :=
  match decode_path nf path with
  | none => .error .parse
  | some cs => readWalk db.root db.ctx.fs [] cs

/-- db.write; a decode_path throw aborts before any effect. -/
def dbWrite (nf : Str → Str) (db : DB) (path content : Str) : DB × Except Err Unit :=
  match decode_path nf path with
  | none => (db, .error .parse)
  | some cs =>
    let canonical := encode_canonical_path cs
    let r := writeWalk db.caseSensitive content canonical db.root db.ctx [] cs
    ({ db with root := r.1, ctx := r.2.1 }, r.2.2)

/-- db.delete. -/
def dbDelete (nf : Str → Str) (db : DB) (path : Str) : DB × Except Err Bool :=
  match decode_path nf path with
  | none => (db, .error .parse)
  | some cs =>
    let canonical := encode_canonical_path cs
    let r := delWalk db.caseSensitive canonical db.root db.ctx [] cs
    ({ db with root := r.1, ctx := r.2.1 }, r.2.2)

/-- A freshly created db over an empty base_dir: the root node is marked as a
    resolved directory (index.js lines 626-627). -/
def initFS : FS := { files := [], mtimes := [], clock := 0, dirs := [[]], fail := [], ro := [] }

def initDB (cS : Bool) : DB :=
  { root := (create_node [47]).setDirp (some none),
    ctx := { fs := initFS, meta := [], antic := [] },
    caseSensitive := cS }

theorem lookupA_insertA_self [DecidableEq κ] (l : List (κ × β)) (k : κ) (v : β) :
    lookupA (insertA l k v) k = some v := by
  induction l with
  | nil => simp [insertA, lookupA]
  | cons p t ih =>
    obtain ⟨k', v'⟩ := p
    unfold insertA
    by_cases h : k' = k
    · rw [if_pos h]
      simp [lookupA]
    · rw [if_neg h]
      unfold lookupA
      rw [if_neg h]
      exact ih

theorem lookupA_eraseA_self [DecidableEq κ] (l : List (κ × β)) (k : κ) :
    lookupA (eraseA l k) k = none := by
  induction l with
  | nil => rfl
  | cons p t ih =>
    obtain ⟨k', v'⟩ := p
    unfold eraseA at ih ⊢
    by_cases h : k' = k
    · rw [List.filter_cons_of_neg (by simp [h])]
      exact ih
    · rw [List.filter_cons_of_pos (by simp [h])]
      unfold lookupA
      rw [if_neg h]
      exact ih

theorem insertA_lookup_eq [DecidableEq κ] {l : List (κ × β)} {k : κ} {v : β}
    (h : lookupA l k = some v) : insertA l k v = l := by
  induction l with
  | nil => cases h
  | cons p t ih =>
    obtain ⟨k', v'⟩ := p
    unfold lookupA at h
    unfold insertA
    by_cases hk : k' = k
    · rw [if_pos hk] at h ⊢
      injection h with h'
      rw [hk, h']
    · rw [if_neg hk] at h ⊢
      rw [ih h]

/-- Node eta. -/
theorem Node.eta (n : Node) :
    Node.mk n.fpc n.children n.icomp n.chain n.dirp = n := by
  cases n
  rfl

theorem Node.setChild_self {n : Node} {k : Str} {c : Node}
    (h : lookupA n.children k = some c) : n.setChild k c = n := by
  cases n with
  | mk f ch i q d =>
    have h' : lookupA ch k = some c := h
    show Node.mk f (insertA ch k c) i q d = Node.mk f ch i q d
    rw [insertA_lookup_eq h']

theorem Node.fpc_setChild (n : Node) (k : Str) (c : Node) : (n.setChild k c).fpc = n.fpc := by
  cases n; rfl

theorem Node.dirp_setChild (n : Node) (k : Str) (c : Node) : (n.setChild k c).dirp = n.dirp := by
  cases n; rfl

theorem Node.chain_setChild (n : Node) (k : Str) (c : Node) : (n.setChild k c).chain = n.chain := by
  cases n; rfl

theorem Node.children_setChild (n : Node) (k : Str) (c : Node) :
    (n.setChild k c).children = insertA n.children k c := by
  cases n; rfl

theorem Node.fpc_setIcomp (n : Node) (k : Str) (v : List Str) : (n.setIcomp k v).fpc = n.fpc := by
  cases n; rfl

theorem Node.dirp_setIcomp (n : Node) (k : Str) (v : List Str) :
    (n.setIcomp k v).dirp = n.dirp := by
  cases n; rfl

theorem Node.chain_setIcomp (n : Node) (k : Str) (v : List Str) :
    (n.setIcomp k v).chain = n.chain := by
  cases n; rfl

theorem Node.children_setIcomp (n : Node) (k : Str) (v : List Str) :
    (n.setIcomp k v).children = n.children := by
  cases n; rfl

theorem Node.fpc_setChain (n : Node) (q : Option Err) : (n.setChain q).fpc = n.fpc := by
  cases n; rfl

theorem Node.dirp_setChain (n : Node) (q : Option Err) : (n.setChain q).dirp = n.dirp := by
  cases n; rfl

theorem Node.chain_setChain (n : Node) (q : Option Err) : (n.setChain q).chain = q := by
  cases n; rfl

theorem Node.children_setChain (n : Node) (q : Option Err) :
    (n.setChain q).children = n.children := by
  cases n; rfl

theorem Node.fpc_setDirp (n : Node) (d : Option (Option Err)) : (n.setDirp d).fpc = n.fpc := by
  cases n; rfl

theorem Node.dirp_setDirp (n : Node) (d : Option (Option Err)) : (n.setDirp d).dirp = d := by
  cases n; rfl

theorem Node.chain_setDirp (n : Node) (d : Option (Option Err)) :
    (n.setDirp d).chain = n.chain := by
  cases n; rfl

theorem Node.children_setDirp (n : Node) (d : Option (Option Err)) :
    (n.setDirp d).children = n.children := by
  cases n; rfl

/-- A resolvable path through the mirror tree: the walk from `n` along `cs` finds
    every node, intermediate nodes are resolved directories, the terminal node
    has promise_chain value `q` and directory_promise value `d`, and `tgt` is the
    on-disk location of the addressed value (the node's own path for a File,
    its index child for a Directory). -/
inductive WPath (q : Option Err) (d : Option (Option Err)) :
    Node → List Str → FPath → FPath → Prop where
  | term {n : Node} {fp : FPath} : n.chain = q → n.dirp = d →
      WPath q d n [] fp (fp ++ if d = none then [] else [strIndex])
  | cons {n : Node} {comp : Str} {child : Node} {rest : List Str} {fp tgt : FPath} :
      lookupA n.children comp = some child →
      (rest ≠ [] → child.dirp = some none) →
      WPath q d child rest (fp ++ [child.fpc]) tgt →
      WPath q d n (comp :: rest) fp tgt

/-- The walk misses a node: some child along `cs` is absent, and every node
    visited before that has a resolvable directory promise. -/
def NodeAbsent : Node → List Str → Prop
  | _, [] => False
  | n, c :: rest =>
    match lookupA n.children c with
    | none => True
    | some child => (child.dirp = none ∨ child.dirp = some none) ∧ NodeAbsent child rest

theorem WPath_nil_spec {q : Option Err} {d : Option (Option Err)} {n : Node}
    {fp tgt : FPath} (h : WPath q d n [] fp tgt) :
    n.chain = q ∧ n.dirp = d ∧ tgt = fp ++ (if d = none then [] else [strIndex]) := by
  cases h with
  | term hq hd => exact ⟨hq, hd, rfl⟩

/-- Reading along a healthy resolvable path never rejects: it yields the stored
    content, or null when the target is missing or its I/O faults. -/
theorem read_of_WPath {d : Option (Option Err)} {n : Node} {cs : List Str}
    {fp tgt : FPath} {fs : FS}
    (hW : WPath none d n cs fp tgt) (hd : d = none ∨ d = some none) :
    readWalk n fs fp cs = .ok (if tgt ∈ fs.fail then none else lookupA fs.files tgt) := by
  induction hW with
  | @term n fp hq hdp =>
    conv_lhs => rw [readWalk.eq_def]
    simp only [hdp, hq]
    rcases hd with rfl | rfl
    · simp only [List.append_nil, ne_eq, not_true_eq_false, reduceIte]
      unfold fsRead
      by_cases hf : fp ∈ fs.fail
      · rw [if_pos hf, if_pos hf]
      · rw [if_neg hf, if_neg hf]
        match lookupA fs.files fp with
        | some c => rfl
        | none => rfl
    · simp only [ne_eq, reduceCtorEq, not_false_eq_true, reduceIte]
      unfold fsRead
      by_cases hf : fp ++ [strIndex] ∈ fs.fail
      · rw [if_pos hf, if_pos hf]
      · rw [if_neg hf, if_neg hf]
        match lookupA fs.files (fp ++ [strIndex]) with
        | some c => rfl
        | none => rfl
  | @cons n comp child rest fp tgt hlk hdir hsub ih =>
    conv_lhs => rw [readWalk.eq_def]
    simp only [hlk]
    have hcd : child.dirp = none ∨ child.dirp = some none := by
      cases rest with
      | nil =>
        obtain ⟨-, hd2, -⟩ := WPath_nil_spec hsub
        rcases hd with rfl | rfl
        · exact Or.inl hd2
        · exact Or.inr hd2
      | cons r rs => exact Or.inr (hdir (by simp))
    rcases hcd with hcd | hcd <;> simp only [hcd] <;> exact ih

/-- Reading along a path whose terminal chain is rejected propagates the error. -/
theorem read_of_WPath_err {d : Option (Option Err)} {e : Err} {n : Node}
    {cs : List Str} {fp tgt : FPath} {fs : FS}
    (hW : WPath (some e) d n cs fp tgt) (hd : d = none ∨ d = some none) :
    readWalk n fs fp cs = .error e := by
  induction hW with
  | @term n fp hq hdp =>
    conv_lhs => rw [readWalk.eq_def]
    simp only [hq]
  | @cons n comp child rest fp tgt hlk hdir hsub ih =>
    conv_lhs => rw [readWalk.eq_def]
    simp only [hlk]
    have hcd : child.dirp = none ∨ child.dirp = some none := by
      cases rest with
      | nil =>
        obtain ⟨-, hd2, -⟩ := WPath_nil_spec hsub
        rcases hd with rfl | rfl
        · exact Or.inl hd2
        · exact Or.inr hd2
      | cons r rs => exact Or.inr (hdir (by simp))
    rcases hcd with hcd | hcd <;> simp only [hcd] <;> exact ih

/-- Reading a path with a missing node resolves null without touching the
    filesystem. -/
theorem read_of_absent {n : Node} {cs : List Str} {fp : FPath} {fs : FS}
    (h : NodeAbsent n cs) : readWalk n fs fp cs = .ok none := by
  induction cs generalizing n fp with
  | nil => cases h
  | cons comp rest ih =>
    unfold NodeAbsent at h
    conv_lhs => rw [readWalk.eq_def]
    match hlk : lookupA n.children comp with
    | none => simp only [hlk]
    | some child =>
      rw [hlk] at h
      obtain ⟨hcd, habs⟩ := h
      simp only [hlk]
      rcases hcd with hcd | hcd <;> simp only [hcd] <;> exact ih habs

theorem fsSetRO_files (fs : FS) (p : FPath) (v : Bool) : (fsSetRO fs p v).files = fs.files := by
  unfold fsSetRO
  by_cases h : v = true <;> simp [h]

theorem fsSetRO_fail (fs : FS) (p : FPath) (v : Bool) : (fsSetRO fs p v).fail = fs.fail := by
  unfold fsSetRO
  by_cases h : v = true <;> simp [h]

/-- The chained write at a healthy terminal succeeds and stores the content. -/
theorem writeOp_spec {content canonical : Str} {n : Node} {ctx : Ctx} {fp tgt : FPath}
    {d : Option (Option Err)}
    (hq : n.chain = none) (hdp : n.dirp = d)
    (htgt : tgt = fp ++ (if d = none then [] else [strIndex]))
    (hd : d = none ∨ d = some none)
    (hf : tgt ∉ ctx.fs.fail) :
    ∃ ctx', writeOp content canonical n ctx fp = (n.setChain none, ctx', .ok ()) ∧
      ctx'.fs.files = insertA ctx.fs.files tgt content ∧
      ctx'.fs.fail = ctx.fs.fail := by
  unfold writeOp
  have htgt2 : (if n.dirp ≠ none then fp ++ [strIndex] else fp) = tgt := by
    rcases hd with rfl | rfl <;> simp [hdp, htgt]
  rw [htgt2, hq]
  simp only
  set fs1 := if fsIsRO ctx.fs tgt then fsSetRO ctx.fs tgt false else ctx.fs with hfs1
  have hfs1_files : fs1.files = ctx.fs.files := by
    rw [hfs1]
    by_cases h : fsIsRO ctx.fs tgt <;> simp [h, fsSetRO_files]
  have hfs1_fail : fs1.fail = ctx.fs.fail := by
    rw [hfs1]
    by_cases h : fsIsRO ctx.fs tgt <;> simp [h, fsSetRO_fail]
  have hwr : fsWrite fs1 tgt content = .ok { fs1 with
      files := insertA fs1.files tgt content,
      mtimes := insertA fs1.mtimes tgt fs1.clock,
      clock := fs1.clock + 1 } := by
    unfold fsWrite
    rw [if_neg (by rw [hfs1_fail]; exact hf)]
  rw [hwr]
  simp only
  set fs2 : FS := { fs1 with
      files := insertA fs1.files tgt content,
      mtimes := insertA fs1.mtimes tgt fs1.clock,
      clock := fs1.clock + 1 } with hfs2
  have hst : fsStat fs2 tgt = .ok fs1.clock := by
    unfold fsStat
    rw [if_neg (by show tgt ∉ fs1.fail; rw [hfs1_fail]; exact hf)]
    show (match lookupA (insertA fs1.mtimes tgt fs1.clock) tgt with
      | some t => Except.ok t
      | none => Except.error (Err.enoent tgt)) = _
    rw [lookupA_insertA_self]
  rw [hst]
  simp only
  refine ⟨_, rfl, ?_, ?_⟩
  · by_cases h : fsIsRO ctx.fs tgt <;>
      simp [h, fsSetRO_files, hfs1_files]
  · by_cases h : fsIsRO ctx.fs tgt <;>
      simp [h, fsSetRO_fail, hfs1_fail]

/-- db.write along an already-existing healthy path: it succeeds, stores the
    content at the target, and preserves the path's shape. -/
theorem write_of_WPath {cS : Bool} {content canonical : Str} {d : Option (Option Err)}
    {n : Node} {ctx : Ctx} {fp : FPath} {cs : List Str} {tgt : FPath}
    (hW : WPath none d n cs fp tgt) (hd : d = none ∨ d = some none)
    (hf : tgt ∉ ctx.fs.fail) :
    ∃ n' ctx',
      writeWalk cS content canonical n ctx fp cs = (n', ctx', .ok ()) ∧
      WPath none d n' cs fp tgt ∧
      n'.dirp = n.dirp ∧ n'.fpc = n.fpc ∧
      ctx'.fs.files = insertA ctx.fs.files tgt content ∧
      ctx'.fs.fail = ctx.fs.fail := by
  induction hW generalizing ctx with
  | @term n fp hq hdp =>
    obtain ⟨ctx', heq, hfiles, hfail⟩ :=
      @writeOp_spec content canonical n ctx fp _ d hq hdp rfl hd hf
    refine ⟨n.setChain none, ctx', ?_, ?_, ?_, ?_, hfiles, hfail⟩
    · show writeOp content canonical n ctx fp = _
      exact heq
    · have : (n.setChain none).dirp = d := by rw [Node.dirp_setChain, hdp]
      have h2 := @WPath.term none d (n.setChain none) fp
        (by rw [Node.chain_setChain]) this
      exact h2
    · rw [Node.dirp_setChain]
    · rw [Node.fpc_setChain]
  | @cons n comp child rest fp tgt hlk hdir hsub ih =>
    have hcd : child.dirp = none ∨ child.dirp = some none := by
      cases rest with
      | nil =>
        obtain ⟨-, hd2, -⟩ := WPath_nil_spec hsub
        rcases hd with rfl | rfl
        · exact Or.inl hd2
        · exact Or.inr hd2
      | cons r rs => exact Or.inr (hdir (by simp))
    obtain ⟨child', ctx', heq, hWsub, hdirp', hfpc', hfiles, hfail⟩ := ih hf
    have hnotconv : ¬(rest ≠ [] ∧ child.dirp = none) := by
      rintro ⟨hrest, hdn⟩
      rw [hdir hrest] at hdn
      cases hdn
    refine ⟨Node.setChild n comp child', ctx', ?_, ?_, ?_, ?_, hfiles, hfail⟩
    · conv_lhs => rw [writeWalk.eq_def]
      simp only [hlk, if_neg hnotconv]
      rcases hcd with hcd | hcd <;> simp only [hcd] <;> rw [heq]
    · refine @WPath.cons _ _ _ _ child' _ _ _ ?_ ?_ ?_
      · rw [Node.children_setChild]
        exact lookupA_insertA_self _ _ _
      · intro hrest
        rw [hdirp']
        exact hdir hrest
      · rw [hfpc']
        exact hWsub
    · rw [Node.dirp_setChild]
    · rw [Node.fpc_setChild]

/-- The chained write at a healthy terminal whose target faults: the error is
    returned and recorded as the node's rejected promise chain. -/
theorem writeOp_fail_spec {content canonical : Str} {n : Node} {ctx : Ctx} {fp tgt : FPath}
    {d : Option (Option Err)}
    (hq : n.chain = none) (hdp : n.dirp = d)
    (htgt : tgt = fp ++ (if d = none then [] else [strIndex]))
    (hd : d = none ∨ d = some none)
    (hfail : tgt ∈ ctx.fs.fail) :
    ∃ ctx', writeOp content canonical n ctx fp
        = (n.setChain (some (.io tgt)), ctx', .error (.io tgt)) ∧
      ctx'.fs.files = ctx.fs.files ∧
      ctx'.fs.fail = ctx.fs.fail := by
  unfold writeOp
  have htgt2 : (if n.dirp ≠ none then fp ++ [strIndex] else fp) = tgt := by
    rcases hd with rfl | rfl <;> simp [hdp, htgt]
  rw [htgt2, hq]
  simp only
  set fs1 := if fsIsRO ctx.fs tgt then fsSetRO ctx.fs tgt false else ctx.fs with hfs1
  have hfs1_files : fs1.files = ctx.fs.files := by
    rw [hfs1]
    by_cases h : fsIsRO ctx.fs tgt <;> simp [h, fsSetRO_files]
  have hfs1_fail : fs1.fail = ctx.fs.fail := by
    rw [hfs1]
    by_cases h : fsIsRO ctx.fs tgt <;> simp [h, fsSetRO_fail]
  have hwr : fsWrite fs1 tgt content = .error (.io tgt) := by
    unfold fsWrite
    rw [if_pos (by rw [hfs1_fail]; exact hfail)]
  rw [hwr]
  exact ⟨_, rfl, hfs1_files, hfs1_fail⟩

/-- db.write along a healthy path whose target faults: the error propagates to
    the caller and the terminal node's promise chain is left rejected. -/
theorem write_fail_of_WPath {cS : Bool} {content canonical : Str} {d : Option (Option Err)}
    {n : Node} {ctx : Ctx} {fp : FPath} {cs : List Str} {tgt : FPath}
    (hW : WPath none d n cs fp tgt) (hd : d = none ∨ d = some none)
    (hfail : tgt ∈ ctx.fs.fail) :
    ∃ n' ctx',
      writeWalk cS content canonical n ctx fp cs = (n', ctx', .error (.io tgt)) ∧
      WPath (some (.io tgt)) d n' cs fp tgt ∧
      n'.dirp = n.dirp ∧ n'.fpc = n.fpc ∧
      ctx'.fs.files = ctx.fs.files ∧
      ctx'.fs.fail = ctx.fs.fail := by
  induction hW generalizing ctx with
  | @term n fp hq hdp =>
    obtain ⟨ctx', heq, hfiles, hfail'⟩ :=
      @writeOp_fail_spec content canonical n ctx fp _ d hq hdp rfl hd hfail
    refine ⟨n.setChain (some (Err.io (fp ++ if d = none then [] else [strIndex]))),
      ctx', ?_, ?_, ?_, ?_, hfiles, hfail'⟩
    · show writeOp content canonical n ctx fp = _
      exact heq
    · exact WPath.term (by rw [Node.chain_setChain]) (by rw [Node.dirp_setChain, hdp])
    · rw [Node.dirp_setChain]
    · rw [Node.fpc_setChain]
  | @cons n comp child rest fp tgt hlk hdir hsub ih =>
    have hcd : child.dirp = none ∨ child.dirp = some none := by
      cases rest with
      | nil =>
        obtain ⟨-, hd2, -⟩ := WPath_nil_spec hsub
        rcases hd with rfl | rfl
        · exact Or.inl hd2
        · exact Or.inr hd2
      | cons r rs => exact Or.inr (hdir (by simp))
    obtain ⟨child', ctx', heq, hWsub, hdirp', hfpc', hfiles, hfail'⟩ := ih hfail
    have hnotconv : ¬(rest ≠ [] ∧ child.dirp = none) := by
      rintro ⟨hrest, hdn⟩
      rw [hdir hrest] at hdn
      cases hdn
    refine ⟨Node.setChild n comp child', ctx', ?_, ?_, ?_, ?_, hfiles, hfail'⟩
    · conv_lhs => rw [writeWalk.eq_def]
      simp only [hlk, if_neg hnotconv]
      rcases hcd with hcd | hcd <;> simp only [hcd] <;> rw [heq]
    · refine @WPath.cons _ _ _ _ child' _ _ _ ?_ ?_ ?_
      · rw [Node.children_setChild]
        exact lookupA_insertA_self _ _ _
      · intro hrest
        rw [hdirp']
        exact hdir hrest
      · rw [hfpc']
        exact hWsub
    · rw [Node.dirp_setChild]
    · rw [Node.fpc_setChild]

theorem eai_empty (c : Str) : encode_to_avoid_icase_collision c [] = some (RRes.ok c) := by
  unfold encode_to_avoid_icase_collision eaiLoop
  simp

theorem fsMkdir_ok {fs : FS} {p : FPath} (h : p ∉ fs.fail) :
    fsMkdir fs p = .ok { fs with dirs := insertL fs.dirs p } := by
  unfold fsMkdir
  rw [if_neg h]

/-- db.write into a fully fresh subtree (no node for any component yet) creates
    the whole path: intermediate directories on disk during the walk, the leaf
    content through the terminal chain. -/
theorem write_create {cS : Bool} {content canonical : Str} :
    ∀ {cs : List Str} {n : Node} {ctx : Ctx} {fp : FPath},
      cs ≠ [] → n.children = [] → n.icomp = [] → ctx.fs.fail = [] →
      ∃ n' ctx' tgt,
        writeWalk cS content canonical n ctx fp cs = (n', ctx', .ok ()) ∧
        WPath none none n' cs fp tgt ∧
        n'.dirp = n.dirp ∧ n'.fpc = n.fpc ∧
        ctx'.fs.files = insertA ctx.fs.files tgt content ∧
        ctx'.fs.fail = [] := by
  intro cs
  induction cs with
  | nil => intro n ctx fp h _ _ _; exact absurd rfl h
  | cons comp rest ih =>
    intro n ctx fp _ hch hic hfail
    have hlk : lookupA n.children comp = none := by rw [hch]; rfl
    have hicomp : lookupA n.icomp (strLower comp) = none := by rw [hic]; rfl
    have hiset : (if cS then [] else (lookupA n.icomp (strLower comp)).getD []) = [] := by
      by_cases h : cS = true <;> simp [h, hicomp]
    have hres : (if cS then some (RRes.ok (encode_file_path_component comp))
        else encode_to_avoid_icase_collision (encode_file_path_component comp)
          (if cS then [] else (lookupA n.icomp (strLower comp)).getD []))
        = some (RRes.ok (encode_file_path_component comp)) := by
      by_cases h : cS = true
      · simp [h]
      · simp only [h, Bool.false_eq_true, if_false, hicomp, Option.getD_none]
        rw [eai_empty]
    set fpc := encode_file_path_component comp with hfpc
    set n1 := if cS then n else n.setIcomp (strLower comp)
      (insertL (if cS then [] else (lookupA n.icomp (strLower comp)).getD []) (strLower fpc))
      with hn1
    have hn1_dirp : n1.dirp = n.dirp := by
      rw [hn1]
      by_cases h : cS = true <;> simp [h, Node.dirp_setIcomp]
    have hn1_fpc : n1.fpc = n.fpc := by
      rw [hn1]
      by_cases h : cS = true <;> simp [h, Node.fpc_setIcomp]
    cases rest with
    | nil =>
      obtain ⟨ctx', heq, hfiles, hfail'⟩ :=
        @writeOp_spec content canonical (create_node fpc) ctx (fp ++ [fpc]) _ none
          rfl rfl rfl (Or.inl rfl) (by rw [hfail]; simp)
      refine ⟨(n1.setChild comp (create_node fpc)).setChild comp
          ((create_node fpc).setChain none), ctx', fp ++ [fpc] ++ [], ?_, ?_, ?_, ?_, ?_, ?_⟩
      · have hw0 : writeWalk cS content canonical (create_node fpc) ctx (fp ++ [fpc]) []
            = ((create_node fpc).setChain none, ctx', .ok ()) := heq
        conv_lhs => rw [writeWalk.eq_def]
        simp only [hlk, hres, reduceIte]
        rw [hw0]
      · refine @WPath.cons _ _ _ _ ((create_node fpc).setChain none) _ _ _ ?_ (by simp) ?_
        · rw [Node.children_setChild]
          exact lookupA_insertA_self _ _ _
        · have hterm := @WPath.term none none ((create_node fpc).setChain none)
            (fp ++ [((create_node fpc).setChain none).fpc])
            (by rw [Node.chain_setChain]) (by rw [Node.dirp_setChain]; rfl)
          simpa using hterm
      · rw [Node.dirp_setChild, Node.dirp_setChild, hn1_dirp]
      · rw [Node.fpc_setChild, Node.fpc_setChild, hn1_fpc]
      · simpa using hfiles
      · rw [hfail', hfail]
    | cons r2 rs2 =>
      have hmk := @fsMkdir_ok ctx.fs (fp ++ [fpc]) (by rw [hfail]; simp)
      obtain ⟨child', ctx', tgt, heq, hWsub, hdirp', hfpc', hfiles, hfail'⟩ :=
        @ih ((create_node fpc).setDirp (some none))
          { ctx with fs := { ctx.fs with dirs := insertL ctx.fs.dirs (fp ++ [fpc]) } }
          (fp ++ [fpc]) (by simp) (by rfl) (by rfl) (by simpa using hfail)
      refine ⟨(n1.setChild comp (create_node fpc)).setChild comp child', ctx', tgt,
        ?_, ?_, ?_, ?_, ?_, hfail'⟩
      · conv_lhs => rw [writeWalk.eq_def]
        simp only [hlk, hres, hmk, reduceIte]
        rw [heq, if_neg (show ¬(r2 :: rs2 = []) by simp)]
      · refine @WPath.cons _ _ _ _ child' _ _ _ ?_ ?_ ?_
        · rw [Node.children_setChild]
          exact lookupA_insertA_self _ _ _
        · intro _
          rw [hdirp', Node.dirp_setDirp]
        · have : child'.fpc = fpc := by rw [hfpc', Node.fpc_setDirp]; rfl
          rw [this]
          exact hWsub
      · rw [Node.dirp_setChild, Node.dirp_setChild, hn1_dirp]
      · rw [Node.fpc_setChild, Node.fpc_setChild, hn1_fpc]
      · simpa using hfiles

theorem Node.children_delChild (n : Node) (k : Str) :
    (n.delChild k).children = eraseA n.children k := by
  cases n; rfl

theorem Node.dirp_delChild (n : Node) (k : Str) : (n.delChild k).dirp = n.dirp := by
  cases n; rfl

theorem Node.fpc_delChild (n : Node) (k : Str) : (n.delChild k).fpc = n.fpc := by
  cases n; rfl

theorem Node.children_delIcomp (n : Node) (k : Str) :
    (n.delIcomp k).children = n.children := by
  cases n; rfl

theorem Node.dirp_delIcomp (n : Node) (k : Str) : (n.delIcomp k).dirp = n.dirp := by
  cases n; rfl

theorem Node.fpc_delIcomp (n : Node) (k : Str) : (n.delIcomp k).fpc = n.fpc := by
  cases n; rfl

theorem Node.dirp_setIcomp' (n : Node) (k : Str) (v : List Str) :
    (n.setIcomp k v).dirp = n.dirp := Node.dirp_setIcomp n k v

/-- delete on a path whose walk misses a node resolves false with no effect. -/
theorem del_of_absent {cS : Bool} {canonical : Str} {n : Node} {ctx : Ctx} {fp : FPath}
    {cs : List Str} (h : NodeAbsent n cs) :
    delWalk cS canonical n ctx fp cs = (n, ctx, .ok false) := by
  induction cs generalizing n fp with
  | nil => cases h
  | cons comp rest ih =>
    unfold NodeAbsent at h
    conv_lhs => rw [delWalk.eq_def]
    match hlk : lookupA n.children comp with
    | none => simp only [hlk]
    | some child =>
      rw [hlk] at h
      obtain ⟨hcd, habs⟩ := h
      have hrest : rest ≠ [] := by
        intro hr
        rw [hr] at habs
        cases habs
      simp only [hlk]
      rcases hcd with hcd | hcd <;>
        simp only [hcd, if_neg hrest, ih habs] <;>
        rw [Node.setChild_self hlk]

theorem removeChildEntry_children (cS : Bool) (n : Node) (comp : Str) (child : Node) :
    (removeChildEntry cS n comp child).children = eraseA n.children comp := by
  unfold removeChildEntry
  by_cases h : cS = true
  · simp [h, Node.children_delChild]
  · simp only [h, Bool.false_eq_true, if_false]
    match lookupA n.icomp (strLower comp) with
    | some iset =>
      by_cases he : eraseL iset (strLower child.fpc) = [] <;>
        simp [he, Node.children_delIcomp, Node.children_setIcomp, Node.children_delChild]
    | none => simp [Node.children_delChild]

theorem removeChildEntry_dirp (cS : Bool) (n : Node) (comp : Str) (child : Node) :
    (removeChildEntry cS n comp child).dirp = n.dirp := by
  unfold removeChildEntry
  by_cases h : cS = true
  · simp [h, Node.dirp_delChild]
  · simp only [h, Bool.false_eq_true, if_false]
    match lookupA n.icomp (strLower comp) with
    | some iset =>
      by_cases he : eraseL iset (strLower child.fpc) = [] <;>
        simp [he, Node.dirp_delIcomp, Node.dirp_setIcomp, Node.dirp_delChild]
    | none => simp [Node.dirp_delChild]

theorem removeChildEntry_fpc (cS : Bool) (n : Node) (comp : Str) (child : Node) :
    (removeChildEntry cS n comp child).fpc = n.fpc := by
  unfold removeChildEntry
  by_cases h : cS = true
  · simp [h, Node.fpc_delChild]
  · simp only [h, Bool.false_eq_true, if_false]
    match lookupA n.icomp (strLower comp) with
    | some iset =>
      by_cases he : eraseL iset (strLower child.fpc) = [] <;>
        simp [he, Node.fpc_delIcomp, Node.fpc_setIcomp, Node.fpc_delChild]
    | none => simp [Node.fpc_delChild]

/-- delete of an existing healthy File leaf: resolves true, removes the node from
    the tree before the unlink, and removes the file from disk. -/
theorem del_ok {cS : Bool} {canonical : Str} {n : Node} {ctx : Ctx} {fp : FPath}
    {cs : List Str} {tgt : FPath} {c0 : Str}
    (hW : WPath none none n cs fp tgt) (hcs : cs ≠ [])
    (hf : tgt ∉ ctx.fs.fail) (hpresent : lookupA ctx.fs.files tgt = some c0) :
    ∃ n' ctx',
      delWalk cS canonical n ctx fp cs = (n', ctx', .ok true) ∧
      NodeAbsent n' cs ∧ n'.dirp = n.dirp ∧ n'.fpc = n.fpc ∧
      ctx'.fs.files = eraseA ctx.fs.files tgt ∧
      ctx'.fs.fail = ctx.fs.fail := by
  induction hW generalizing ctx with
  | term _ _ => exact absurd rfl hcs
  | @cons n comp child rest fp tgt hlk hdir hsub ih =>
    cases rest with
    | nil =>
      obtain ⟨hq, hdp, htgt⟩ := WPath_nil_spec hsub
      have htgt' : tgt = fp ++ [child.fpc] := by
        rw [htgt]
        simp
      subst htgt'
      set fs1 := if fsIsRO ctx.fs (fp ++ [child.fpc]) then
          fsSetRO ctx.fs (fp ++ [child.fpc]) false else ctx.fs with hfs1
      have hfs1_files : fs1.files = ctx.fs.files := by
        rw [hfs1]
        by_cases h : fsIsRO ctx.fs (fp ++ [child.fpc]) <;> simp [h, fsSetRO_files]
      have hfs1_fail : fs1.fail = ctx.fs.fail := by
        rw [hfs1]
        by_cases h : fsIsRO ctx.fs (fp ++ [child.fpc]) <;> simp [h, fsSetRO_fail]
      set fs2 : FS := { fs1 with
          files := eraseA fs1.files (fp ++ [child.fpc]),
          mtimes := eraseA fs1.mtimes (fp ++ [child.fpc]) } with hfs2
      have hun : fsUnlink fs1 (fp ++ [child.fpc]) = .ok fs2 := by
        unfold fsUnlink
        rw [if_neg (by rw [hfs1_fail]; exact hf),
          (by rw [hfs1_files]; exact hpresent :
            lookupA fs1.files (fp ++ [child.fpc]) = some c0)]
      have hstep : delWalk cS canonical n ctx fp [comp]
          = (removeChildEntry cS n comp child,
             { ctx with fs := fs2, meta := eraseA ctx.meta canonical }, .ok true) := by
        conv_lhs => rw [delWalk.eq_def]
        simp only [hlk, hdp, hq, reduceIte, ne_eq, not_true_eq_false, if_false,
          List.append_nil]
        rw [← hfs1, hun]
      refine ⟨removeChildEntry cS n comp child, _, hstep, ?_,
        removeChildEntry_dirp _ _ _ _, removeChildEntry_fpc _ _ _ _, ?_, ?_⟩
      · show NodeAbsent (removeChildEntry cS n comp child) [comp]
        unfold NodeAbsent
        rw [removeChildEntry_children, lookupA_eraseA_self]
        trivial
      · show fs2.files = eraseA ctx.fs.files (fp ++ [child.fpc])
        rw [hfs2]
        show eraseA fs1.files (fp ++ [child.fpc]) = _
        rw [hfs1_files]
      · show fs2.fail = ctx.fs.fail
        rw [hfs2]
        show fs1.fail = ctx.fs.fail
        exact hfs1_fail
    | cons r2 rs2 =>
      have hcd : child.dirp = some none := hdir (by simp)
      obtain ⟨child', ctx', heq, habs, hdirp', hfpc', hfiles, hfail'⟩ := ih (by simp) hf hpresent
      refine ⟨n.setChild comp child', ctx', ?_, ?_, Node.dirp_setChild _ _ _,
        Node.fpc_setChild _ _ _, hfiles, hfail'⟩
      · conv_lhs => rw [delWalk.eq_def]
        simp only [hlk, hcd, if_neg (show ¬(r2 :: rs2 = []) by simp)]
        rw [heq]
      · show NodeAbsent (n.setChild comp child') (comp :: r2 :: rs2)
        unfold NodeAbsent
        rw [Node.children_setChild, lookupA_insertA_self]
        exact ⟨Or.inr (by rw [hdirp', hcd]), habs⟩

/-- delete of a healthy File leaf whose unlink rejects (fault or file already
    gone): the node has already been removed from the tree, yet delete resolves
    false and the on-disk files are unchanged. -/
theorem del_fail {cS : Bool} {canonical : Str} {n : Node} {ctx : Ctx} {fp : FPath}
    {cs : List Str} {tgt : FPath}
    (hW : WPath none none n cs fp tgt) (hcs : cs ≠ [])
    (hbad : tgt ∈ ctx.fs.fail ∨ lookupA ctx.fs.files tgt = none) :
    ∃ n' ctx',
      delWalk cS canonical n ctx fp cs = (n', ctx', .ok false) ∧
      NodeAbsent n' cs ∧ n'.dirp = n.dirp ∧ n'.fpc = n.fpc ∧
      ctx'.fs.files = ctx.fs.files ∧
      ctx'.fs.fail = ctx.fs.fail := by
  induction hW generalizing ctx with
  | term _ _ => exact absurd rfl hcs
  | @cons n comp child rest fp tgt hlk hdir hsub ih =>
    cases rest with
    | nil =>
      obtain ⟨hq, hdp, htgt⟩ := WPath_nil_spec hsub
      have htgt' : tgt = fp ++ [child.fpc] := by
        rw [htgt]
        simp
      subst htgt'
      set fs1 := if fsIsRO ctx.fs (fp ++ [child.fpc]) then
          fsSetRO ctx.fs (fp ++ [child.fpc]) false else ctx.fs with hfs1
      have hfs1_files : fs1.files = ctx.fs.files := by
        rw [hfs1]
        by_cases h : fsIsRO ctx.fs (fp ++ [child.fpc]) <;> simp [h, fsSetRO_files]
      have hfs1_fail : fs1.fail = ctx.fs.fail := by
        rw [hfs1]
        by_cases h : fsIsRO ctx.fs (fp ++ [child.fpc]) <;> simp [h, fsSetRO_fail]
      have hun : ∃ e, fsUnlink fs1 (fp ++ [child.fpc]) = .error e := by
        unfold fsUnlink
        rcases hbad with hb | hb
        · exact ⟨.io (fp ++ [child.fpc]), by rw [if_pos (by rw [hfs1_fail]; exact hb)]⟩
        · by_cases hfl : fp ++ [child.fpc] ∈ fs1.fail
          · exact ⟨.io (fp ++ [child.fpc]), by rw [if_pos hfl]⟩
          · refine ⟨.enoent (fp ++ [child.fpc]), ?_⟩
            rw [if_neg hfl, (by rw [hfs1_files]; exact hb :
              lookupA fs1.files (fp ++ [child.fpc]) = none)]
      obtain ⟨e, hun⟩ := hun
      have hstep : delWalk cS canonical n ctx fp [comp]
          = (removeChildEntry cS n comp child, { ctx with fs := fs1 }, .ok false) := by
        conv_lhs => rw [delWalk.eq_def]
        simp only [hlk, hdp, hq, reduceIte, ne_eq, not_true_eq_false, if_false,
          List.append_nil]
        rw [← hfs1, hun]
      refine ⟨removeChildEntry cS n comp child, _, hstep, ?_,
        removeChildEntry_dirp _ _ _ _, removeChildEntry_fpc _ _ _ _, hfs1_files, hfs1_fail⟩
      show NodeAbsent (removeChildEntry cS n comp child) [comp]
      unfold NodeAbsent
      rw [removeChildEntry_children, lookupA_eraseA_self]
      trivial
    | cons r2 rs2 =>
      have hcd : child.dirp = some none := hdir (by simp)
      obtain ⟨child', ctx', heq, habs, hdirp', hfpc', hfiles, hfail'⟩ := ih (by simp) hbad
      refine ⟨n.setChild comp child', ctx', ?_, ?_, Node.dirp_setChild _ _ _,
        Node.fpc_setChild _ _ _, hfiles, hfail'⟩
      · conv_lhs => rw [delWalk.eq_def]
        simp only [hlk, hcd, if_neg (show ¬(r2 :: rs2 = []) by simp)]
        rw [heq]
      · show NodeAbsent (n.setChild comp child') (comp :: r2 :: rs2)
        unfold NodeAbsent
        rw [Node.children_setChild, lookupA_insertA_self]
        exact ⟨Or.inr (by rw [hdirp', hcd]), habs⟩

/-- C1: writing "/a" then "/a/b" converts the node at /a from File to Directory
    via the conversion procedure (read existing content, delete the entry, create
    a directory at the same path, write the prior content to the index child):
    afterwards read("/a") = "A", read("/a/b") = "B", the index entry exists under
    /a on disk, the old file entry is gone and /a is a directory on disk.  The
    components decode to "a" (code 97) and "b" (code 98); contents are "A"/"B". -/
theorem C1_file_to_directory_conversion (nf : Str → Str) (cS : Bool) (pa pb : Str)
    (h1 : decode_path nf pa = some [[97]])
    (h2 : decode_path nf pb = some [[97], [98]]) :
    (dbWrite nf (initDB cS) pa [65]).2 = .ok () ∧
    (dbWrite nf (dbWrite nf (initDB cS) pa [65]).1 pb [66]).2 = .ok () ∧
    dbRead nf (dbWrite nf (dbWrite nf (initDB cS) pa [65]).1 pb [66]).1 pa
      = .ok (some [65]) ∧
    dbRead nf (dbWrite nf (dbWrite nf (initDB cS) pa [65]).1 pb [66]).1 pb
      = .ok (some [66]) ∧
    lookupA (dbWrite nf (dbWrite nf (initDB cS) pa [65]).1 pb [66]).1.ctx.fs.files
      [[97], strIndex] = some [65] ∧
    lookupA (dbWrite nf (dbWrite nf (initDB cS) pa [65]).1 pb [66]).1.ctx.fs.files
      [[97]] = none ∧
    [[97]] ∈ (dbWrite nf (dbWrite nf (initDB cS) pa [65]).1 pb [66]).1.ctx.fs.dirs := by
  unfold dbWrite dbRead
  rw [h1, h2]
  cases cS
  · exact ⟨rfl, rfl, rfl, rfl, rfl, rfl, by decide⟩
  · exact ⟨rfl, rfl, rfl, rfl, rfl, rfl, by decide⟩

theorem C1_file_to_directory_conversion_witness :
    (dbWrite id (initDB true) [47, 97] [65]).2 = .ok () ∧
    (dbWrite id (dbWrite id (initDB true) [47, 97] [65]).1 [47, 97, 47, 98] [66]).2
      = .ok () ∧
    dbRead id (dbWrite id (dbWrite id (initDB true) [47, 97] [65]).1
      [47, 97, 47, 98] [66]).1 [47, 97] = .ok (some [65]) ∧
    dbRead id (dbWrite id (dbWrite id (initDB true) [47, 97] [65]).1
      [47, 97, 47, 98] [66]).1 [47, 97, 47, 98] = .ok (some [66]) ∧
    lookupA (dbWrite id (dbWrite id (initDB true) [47, 97] [65]).1
      [47, 97, 47, 98] [66]).1.ctx.fs.files [[97], strIndex] = some [65] ∧
    lookupA (dbWrite id (dbWrite id (initDB true) [47, 97] [65]).1
      [47, 97, 47, 98] [66]).1.ctx.fs.files [[97]] = none ∧
    [[97]] ∈ (dbWrite id (dbWrite id (initDB true) [47, 97] [65]).1
      [47, 97, 47, 98] [66]).1.ctx.fs.dirs :=
  C1_file_to_directory_conversion id true [47, 97] [47, 97, 47, 98] (by decide) (by decide)


theorem dbRead_eq {nf : Str → Str} {db : DB} {path : Str} {cs : List Str}
    (h : decode_path nf path = some cs) :
    dbRead nf db path = readWalk db.root db.ctx.fs [] cs := by
  unfold dbRead
  rw [h]

theorem dbWrite_eq {nf : Str → Str} {db : DB} {path content : Str} {cs : List Str}
    (h : decode_path nf path = some cs) :
    dbWrite nf db path content =
      (let r := writeWalk db.caseSensitive content (encode_canonical_path cs) db.root db.ctx [] cs
       ({ db with root := r.1, ctx := r.2.1 }, r.2.2)) := by
  unfold dbWrite
  rw [h]

/-- N writes issued in program order on the same path: each is enqueued on the
    terminal node's promise chain behind its predecessor (in this big-step model,
    each db.write runs after the previous one completes, matching the microtask
    FIFO order in which same-path writes attach to the chain). -/
def writeSeq (nf : Str → Str) (P : Str) : DB → List Str → DB × List (Except Err Unit)
  | db, [] => (db, [])
  | db, v :: vs =>
    let r := dbWrite nf db P v
    let rest := writeSeq nf P r.1 vs
    (rest.1, r.2 :: rest.2)

theorem writeSeq_cons (nf : Str → Str) (P : Str) (db : DB) (v : Str) (vs : List Str) :
    writeSeq nf P db (v :: vs) =
      ((writeSeq nf P (dbWrite nf db P v).1 vs).1,
       (dbWrite nf db P v).2 :: (writeSeq nf P (dbWrite nf db P v).1 vs).2) := by
  conv_lhs => rw [writeSeq.eq_def]

theorem writeSeq_inv {nf : Str → Str} {P : Str} {cs : List Str} {tgt : FPath}
    {d : Option (Option Err)}
    (h : decode_path nf P = some cs) (hd : d = none ∨ d = some none) :
    ∀ (vs : List Str) (db : DB), WPath none d db.root cs [] tgt →
      db.ctx.fs.fail = [] →
      (∀ r ∈ (writeSeq nf P db vs).2, r = .ok ()) ∧
      WPath none d (writeSeq nf P db vs).1.root cs [] tgt ∧
      (writeSeq nf P db vs).1.ctx.fs.fail = [] ∧
      (vs = [] → (writeSeq nf P db vs).1 = db) ∧
      (∀ w, vs.getLast? = some w →
        lookupA (writeSeq nf P db vs).1.ctx.fs.files tgt = some w) := by
  intro vs
  induction vs with
  | nil =>
    intro db hW hfail
    refine ⟨?_, hW, hfail, fun _ => rfl, ?_⟩
    · intro r hr
      cases hr
    · intro w hw
      cases hw
  | cons v vs ih =>
    intro db hW hfail
    obtain ⟨n', ctx', heq, hW', hdirp', hfpc', hfiles, hfail'⟩ :=
      @write_of_WPath db.caseSensitive v (encode_canonical_path cs) d db.root
        db.ctx [] cs tgt hW hd (by rw [hfail]; simp)
    have hw1 : dbWrite nf db P v = ({ db with root := n', ctx := ctx' }, .ok ()) := by
      rw [dbWrite_eq h]
      simp only [heq]
    obtain ⟨hall, hW2, hfail2, hnil2, hlast2⟩ :=
      ih { db with root := n', ctx := ctx' } hW' (by rw [hfail', hfail])
    rw [writeSeq_cons, hw1]
    refine ⟨?_, hW2, hfail2, ?_, ?_⟩
    · intro r hr
      rcases List.mem_cons.mp hr with rfl | hr'
      · rfl
      · exact hall r hr'
    · intro hvnil
      cases hvnil
    · intro w hw
      cases vs with
      | nil =>
        have hv : ([v] : List Str).getLast? = some v := rfl
        rw [hv] at hw
        injection hw with hw'
        subst hw'
        rw [hnil2 rfl]
        show lookupA ctx'.fs.files tgt = some v
        rw [hfiles]
        exact lookupA_insertA_self _ _ _
      | cons v2 vs2 =>
        rw [List.getLast?_cons_cons] at hw
        exact hlast2 w hw

/-- C5: N writes (N >= 1) issued in program order to the same canonical path all
    succeed, execute in order on that node's chain, and a subsequent read returns
    the last value written. -/
theorem C5_serialized_writes (nf : Str → Str) (cS : Bool) (P : Str) (cs : List Str)
    (vs : List Str) (vN : Str)
    (h : decode_path nf P = some cs) (hlast : vs.getLast? = some vN) :
    (∀ r ∈ (writeSeq nf P (initDB cS) vs).2, r = .ok ()) ∧
    dbRead nf (writeSeq nf P (initDB cS) vs).1 P = .ok (some vN) := by
  cases cs with
  | nil =>
    have hW := @WPath.term none (some none) (initDB cS).root ([] : FPath) rfl rfl
    obtain ⟨hall, hW2, hfail2, -, hlook⟩ :=
      writeSeq_inv h (Or.inr rfl) vs (initDB cS) hW rfl
    refine ⟨hall, ?_⟩
    rw [dbRead_eq h, read_of_WPath hW2 (Or.inr rfl), if_neg (by rw [hfail2]; simp),
      hlook vN hlast]
  | cons c0 cs' =>
    cases vs with
    | nil => cases hlast
    | cons v vs' =>
      obtain ⟨n', ctx', tgt, heq, hW', hdirp', hfpc', hfiles, hfail'⟩ :=
        @write_create (initDB cS).caseSensitive v (encode_canonical_path (c0 :: cs'))
          (c0 :: cs') (initDB cS).root (initDB cS).ctx [] (by simp) rfl rfl rfl
      have hw1 : dbWrite nf (initDB cS) P v
          = ({ initDB cS with root := n', ctx := ctx' }, .ok ()) := by
        rw [dbWrite_eq h]
        simp only [heq]
      obtain ⟨hall, hW2, hfail2, hnil2, hlast2⟩ :=
        writeSeq_inv h (Or.inl rfl) vs' { initDB cS with root := n', ctx := ctx' } hW' hfail'
      rw [writeSeq_cons, hw1]
      refine ⟨?_, ?_⟩
      · intro r hr
        rcases List.mem_cons.mp hr with rfl | hr'
        · rfl
        · exact hall r hr'
      · rw [dbRead_eq h, read_of_WPath hW2 (Or.inl rfl), if_neg (by rw [hfail2]; simp)]
        cases vs' with
        | nil =>
          have hv : ([v] : List Str).getLast? = some v := rfl
          rw [hv] at hlast
          injection hlast with hl
          subst hl
          rw [hnil2 rfl]
          show Except.ok (lookupA ctx'.fs.files tgt) = _
          rw [hfiles, lookupA_insertA_self]
        | cons v2 vs2 =>
          rw [List.getLast?_cons_cons] at hlast
          rw [hlast2 vN hlast]

theorem C5_serialized_writes_witness :
    decode_path id [47, 97] = some [[97]] ∧
    ([[65], [66], [67]] : List Str).getLast? = some [67] ∧
    ((∀ r ∈ (writeSeq id [47, 97] (initDB true) [[65], [66], [67]]).2, r = .ok ()) ∧
     dbRead id (writeSeq id [47, 97] (initDB true) [[65], [66], [67]]).1 [47, 97]
       = .ok (some [67])) :=
  ⟨by decide, by decide,
   C5_serialized_writes id true [47, 97] [[97]] [[65], [66], [67]] [67]
     (by decide) (by decide)⟩

/-- A db whose tree already resolves the path /a to a File node, over a
    filesystem that faults on its backing path: the smallest state in which a
    write's underlying writeFile rejects. -/
def dbC6 : DB :=
  { root := ((create_node [47]).setDirp (some none)).setChild [97]
      (Node.mk [97] [] [] none none),
    ctx := { fs := { files := [], mtimes := [], clock := 0, dirs := [[]],
                     fail := [[[97]]], ro := [] },
             meta := [], antic := [] },
    caseSensitive := true }

/-- C6 counterexample: when the underlying writeFile fails, the error is indeed
    propagated to the write caller, but the node's operation queue is left
    rejected, so a subsequent read of the same path rejects with the stale write
    error instead of resolving normally — refuting the claim's consistency part. -/
theorem C6_counterexample :
    (dbWrite id dbC6 [47, 97] [65]).2 = .error (.io [[97]]) ∧
    dbRead id (dbWrite id dbC6 [47, 97] [65]).1 [47, 97] = .error (.io [[97]]) := by
  exact ⟨rfl, rfl⟩

/-- C6 (amended): for every write whose underlying filesystem write fails, the
    error is propagated to the write caller (never silently dropped) and the
    on-disk contents are untouched; however the terminal node's promise chain is
    left permanently rejected, so a subsequent read of the same path rejects
    with the same stale error rather than resolving normally. -/
theorem C6_write_failure_amended (nf : Str → Str) (P content : Str)
    (cs : List Str) (tgt : FPath) (db : DB)
    (h : decode_path nf P = some cs)
    (hW : WPath none none db.root cs [] tgt)
    (hfail : tgt ∈ db.ctx.fs.fail) :
    (dbWrite nf db P content).2 = .error (.io tgt) ∧
    (dbWrite nf db P content).1.ctx.fs.files = db.ctx.fs.files ∧
    dbRead nf (dbWrite nf db P content).1 P = .error (.io tgt) := by
  obtain ⟨n', ctx', heq, hW', hdirp', hfpc', hfiles, hfail'⟩ :=
    @write_fail_of_WPath db.caseSensitive content (encode_canonical_path cs) none
      db.root db.ctx [] cs tgt hW (Or.inl rfl) hfail
  rw [dbWrite_eq h]
  simp only [heq]
  refine ⟨by trivial, hfiles, ?_⟩
  rw [dbRead_eq h]
  exact read_of_WPath_err hW' (Or.inl rfl)

theorem C6_write_failure_amended_witness :
    decode_path id [47, 97] = some [[97]] ∧
    [[97]] ∈ dbC6.ctx.fs.fail ∧
    ((dbWrite id dbC6 [47, 97] [65]).2 = .error (.io [[97]]) ∧
     (dbWrite id dbC6 [47, 97] [65]).1.ctx.fs.files = dbC6.ctx.fs.files ∧
     dbRead id (dbWrite id dbC6 [47, 97] [65]).1 [47, 97] = .error (.io [[97]])) :=
  ⟨by decide, by decide,
   C6_write_failure_amended id [47, 97] [65] [[97]] [[97]] dbC6 (by decide)
     (@WPath.cons none none dbC6.root [97] (Node.mk [97] [] [] none none) [] [] [[97]]
       rfl (fun h => absurd rfl h) (WPath.term rfl rfl))
     (by decide)⟩

theorem dbDelete_eq {nf : Str → Str} {db : DB} {path : Str} {cs : List Str}
    (h : decode_path nf path = some cs) :
    dbDelete nf db path =
      (let r := delWalk db.caseSensitive (encode_canonical_path cs) db.root db.ctx [] cs
       ({ db with root := r.1, ctx := r.2.1 }, r.2.2)) := by
  unfold dbDelete
  rw [h]

/-- C7: a read over a resolvable path never rejects — it yields the stored
    content, and null when the target file is missing or its I/O faults; a read
    of a path with no node resolves null; delete of a non-existent path returns
    the state unchanged with false and never throws; delete of an existing
    healthy leaf resolves true and a subsequent read of the path resolves null. -/
theorem C7_read_delete_error_handling (nf : Str → Str) (P : Str) (cs : List Str)
    (tgt : FPath) (db : DB) (d : Option (Option Err)) (c0 : Str)
    (h : decode_path nf P = some cs) (hd : d = none ∨ d = some none) :
    (WPath none d db.root cs [] tgt →
       dbRead nf db P
         = .ok (if tgt ∈ db.ctx.fs.fail then none else lookupA db.ctx.fs.files tgt)) ∧
    (NodeAbsent db.root cs → dbRead nf db P = .ok none) ∧
    (NodeAbsent db.root cs → dbDelete nf db P = (db, .ok false)) ∧
    (WPath none none db.root cs [] tgt → cs ≠ [] → tgt ∉ db.ctx.fs.fail →
       lookupA db.ctx.fs.files tgt = some c0 →
       (dbDelete nf db P).2 = .ok true ∧
       dbRead nf (dbDelete nf db P).1 P = .ok none) := by
  refine ⟨?_, ?_, ?_, ?_⟩
  · intro hW
    rw [dbRead_eq h]
    exact read_of_WPath hW hd
  · intro habs
    rw [dbRead_eq h]
    exact read_of_absent habs
  · intro habs
    rw [dbDelete_eq h]
    simp only [del_of_absent habs]
  · intro hW hcs hnf hpres
    obtain ⟨n', ctx', heq, habs', hdirp', hfpc', hfiles, hfail'⟩ :=
      @del_ok db.caseSensitive (encode_canonical_path cs) db.root db.ctx [] cs tgt
        c0 hW hcs hnf hpres
    rw [dbDelete_eq h]
    simp only [heq]
    refine ⟨by trivial, ?_⟩
    rw [dbRead_eq h]
    exact read_of_absent habs'

/-- A db resolving /a to a File node whose backing file exists and is healthy. -/
def dbC7 : DB :=
  { root := ((create_node [47]).setDirp (some none)).setChild [97]
      (Node.mk [97] [] [] none none),
    ctx := { fs := { files := [([[97]], [65])], mtimes := [], clock := 0,
                     dirs := [[]], fail := [], ro := [] },
             meta := [], antic := [] },
    caseSensitive := true }

theorem C7_read_delete_error_handling_witness :
    decode_path id [47, 97] = some [[97]] ∧
    ((none : Option (Option Err)) = none ∨ (none : Option (Option Err)) = some none) ∧
    ((WPath none none dbC7.root [[97]] [] [[97]] →
        dbRead id dbC7 [47, 97]
          = .ok (if [[97]] ∈ dbC7.ctx.fs.fail then none
                 else lookupA dbC7.ctx.fs.files [[97]])) ∧
     (NodeAbsent dbC7.root [[97]] → dbRead id dbC7 [47, 97] = .ok none) ∧
     (NodeAbsent dbC7.root [[97]] → dbDelete id dbC7 [47, 97] = (dbC7, .ok false)) ∧
     (WPath none none dbC7.root [[97]] [] [[97]] → [[97]] ≠ ([] : List Str) →
        [[97]] ∉ dbC7.ctx.fs.fail →
        lookupA dbC7.ctx.fs.files [[97]] = some [65] →
        (dbDelete id dbC7 [47, 97]).2 = .ok true ∧
        dbRead id (dbDelete id dbC7 [47, 97]).1 [47, 97] = .ok none)) :=
  ⟨by decide, Or.inl rfl,
   C7_read_delete_error_handling id [47, 97] [[97]] [[97]] dbC7 none [65]
     (by decide) (Or.inl rfl)⟩

/-- A db resolving /a to a File node whose backing file exists but whose path
    faults on I/O: the unlink inside delete will fail. -/
def dbC10 : DB :=
  { root := ((create_node [47]).setDirp (some none)).setChild [97]
      (Node.mk [97] [] [] none none),
    ctx := { fs := { files := [([[97]], [65])], mtimes := [], clock := 0,
                     dirs := [[]], fail := [[[97]]], ro := [] },
             meta := [], antic := [] },
    caseSensitive := true }

/-- C10: deleting a File leaf removes the node from the parent's child map and
    the case-fold index before the unlink is attempted, so when the unlink
    fails, delete resolves false, the node is gone from the tree, the disk
    contents are untouched, and a subsequent read of the path resolves null
    even though the file may still exist on disk. -/
theorem C10_delete_removes_tree_node_before_unlink (nf : Str → Str) (P : Str)
    (cs : List Str) (tgt : FPath) (db : DB)
    (h : decode_path nf P = some cs) (hcs : cs ≠ [])
    (hW : WPath none none db.root cs [] tgt)
    (hfail : tgt ∈ db.ctx.fs.fail) :
    (dbDelete nf db P).2 = .ok false ∧
    NodeAbsent (dbDelete nf db P).1.root cs ∧
    (dbDelete nf db P).1.ctx.fs.files = db.ctx.fs.files ∧
    dbRead nf (dbDelete nf db P).1 P = .ok none := by
  obtain ⟨n', ctx', heq, habs', hdirp', hfpc', hfiles, hfail'⟩ :=
    @del_fail db.caseSensitive (encode_canonical_path cs) db.root db.ctx [] cs tgt
      hW hcs (Or.inl hfail)
  rw [dbDelete_eq h]
  simp only [heq]
  refine ⟨by trivial, habs', hfiles, ?_⟩
  rw [dbRead_eq h]
  exact read_of_absent habs'

theorem C10_delete_removes_tree_node_before_unlink_witness :
    decode_path id [47, 97] = some [[97]] ∧
    ([[97]] : List Str) ≠ [] ∧
    [[97]] ∈ dbC10.ctx.fs.fail ∧
    ((dbDelete id dbC10 [47, 97]).2 = .ok false ∧
     NodeAbsent (dbDelete id dbC10 [47, 97]).1.root [[97]] ∧
     (dbDelete id dbC10 [47, 97]).1.ctx.fs.files = dbC10.ctx.fs.files ∧
     dbRead id (dbDelete id dbC10 [47, 97]).1 [47, 97] = .ok none) :=
  ⟨by decide, by decide, by decide,
   C10_delete_removes_tree_node_before_unlink id [47, 97] [[97]] [[97]] dbC10
     (by decide) (by decide)
     (@WPath.cons none none dbC10.root [97] (Node.mk [97] [] [] none none) [] [] [[97]]
       rfl (fun h => absurd rfl h) (WPath.term rfl rfl))
     (by decide)⟩

/-- The five chokidar event kinds wired to chokidar_handler (index.js line 755). -/
inductive FsEvt where
  | add
  | addDir
  | change
  | unlink
  | unlinkDir
  deriving DecidableEq, Repr

/-- event.startsWith('add'). -/
def evtIsAdd : FsEvt → Bool
  | .add => true
  | .addDir => true
  | _ => false

/-- event.startsWith('unlink'). -/
def evtIsUnlink : FsEvt → Bool
  | .unlink => true
  | .unlinkDir => true
  | _ => false

/-- String.prototype.startsWith. -/
def strHasPre : Str → Str → Bool
  | [], _ => true
  | _ :: _, [] => false
  | a :: as, b :: bs => a = b && strHasPre as bs

/-- The add/addDir walk of chokidar_handler (index.js lines 646-677): create
    missing nodes, track the case-fold index, throw on a corrupted
    file_path_component, and mark the terminal node as a resolved directory on
    addDir.  A decode_component throw rejects the handler (none). -/
def addWalk (cS : Bool) (nf : Str → Str) (isDir : Bool) : Node → List Str → Option Node
  | n, [] => some n
  | n, fpc :: rest =>
    match decode_component nf fpc with
    | none => none
    | some comp =>
      let n1 :=
        match lookupA n.children comp with
        | some _ => n
        | none => n.setChild comp (create_node fpc)
      let n2 :=
        if cS then n1
        else
          let iset := (lookupA n1.icomp (strLower comp)).getD []
          n1.setIcomp (strLower comp) (insertL iset (strLower fpc))
      match lookupA n2.children comp with
      | none => none
      | some child =>
        if child.fpc ≠ fpc then none
        else
          match rest with
          | [] => some (n2.setChild comp (if isDir then child.setDirp (some none) else child))
          | r :: rs =>
            match addWalk cS nf isDir child (r :: rs) with
            | none => none
            | some child' => some (n2.setChild comp child')

/-- The unlink/unlinkDir walk of chokidar_handler (index.js lines 680-706):
    remove the terminal entry from the parent's child map and the case-fold
    index; a missing intermediate node breaks out of the loop. -/
def unlinkWalk (cS : Bool) (nf : Str → Str) : Node → List Str → Option Node
  | n, [] => some n
  | n, [fpc] =>
    match decode_component nf fpc with
    | none => none
    | some comp =>
      let n1 := n.delChild comp
      if cS then some n1
      else
        match lookupA n.icomp (strLower comp) with
        | some iset =>
          let iset' := eraseL iset (strLower fpc)
          some (if iset' = [] then n1.delIcomp (strLower comp)
                else n1.setIcomp (strLower comp) iset')
        | none => some n1
  | n, fpc :: r :: rs =>
    match decode_component nf fpc with
    | none => none
    | some comp =>
      match lookupA n.children comp with
      | none => some n
      | some child =>
        match unlinkWalk cS nf child (r :: rs) with
        | none => none
        | some child' => some (n.setChild comp child')

/-- The notify section of chokidar_handler for add/change (index.js lines
    716-747): skip anticipated canonical paths; stat the file (a stat error is
    caught and deletes the metadata record); fire the callback (when installed)
    iff there is no recorded mtime, the recorded mtime is falsy (0), or the
    observed mtime is strictly newer, and then mark_as_seen.  The returned
    Option Str is the canonical path the external callback was invoked with. -/
def notify (nf : Str → Str) (cb : Bool) (ctx : Ctx) (file_path : Str) (tgt : FPath) :
    Option (Ctx × Option Str) :=
  match get_canonical_path nf file_path with
  | none => none
  | some canonical =>
    if canonical ∈ ctx.antic then some (ctx, none)
    else
      match fsStat ctx.fs tgt with
      | .error _ => some ({ ctx with meta := eraseA ctx.meta canonical }, none)
      | .ok mt =>
        if (match lookupA ctx.meta canonical with
            | none => true
            | some r => decide (r = 0) || decide (r < mt)) then
          some ({ ctx with meta := insertA ctx.meta canonical mt },
                if cb then some canonical else none)
        else some (ctx, none)

/-- chokidar_handler (index.js lines 632-747).  filter is the optional
    filter_cb, cb records whether an external callback is installed, and the
    result is none when the handler's promise rejects (a decode_component or
    corruption throw), otherwise the new tree root, the new context, and the
    canonical path the external callback fired with, if any. -/
def chokidar_handler (cS : Bool) (nf : Str → Str) (filter : Option (Str → FsEvt → Bool))
    (cb : Bool) (base_dir : Str) (root : Node) (ctx : Ctx)
    (fullpath : Str) (event : FsEvt) : Option (Node × Ctx × Option Str) :=
  if !strHasPre (base_dir ++ [47]) fullpath then some (root, ctx, none)
  else if (match filter with | some f => !f fullpath event | none => false) then
    some (root, ctx, none)
  else
    match (if evtIsAdd event then
             addWalk cS nf (event = FsEvt.addDir) root
               (splitOnSlash ((fullpath.drop base_dir.length).drop 1))
           else some root) with
    | none => none
    | some root1 =>
      match (if evtIsUnlink event then
               unlinkWalk cS nf root1 (splitOnSlash ((fullpath.drop base_dir.length).drop 1))
             else some root1) with
      | none => none
      | some root2 =>
        match event with
        | .addDir => some (root2, ctx, none)
        | .unlinkDir => some (root2, ctx, none)
        | .unlink =>
          match get_canonical_path nf (fullpath.drop base_dir.length) with
          | none => none
          | some canonical =>
            some (root2, { ctx with meta := eraseA ctx.meta canonical }, none)
        | _ =>
          match notify nf cb ctx (fullpath.drop base_dir.length)
                  (splitOnSlash ((fullpath.drop base_dir.length).drop 1)) with
          | none => none
          | some r => some (root2, r.1, r.2)

theorem notify_fired {nf : Str → Str} {cb : Bool} {ctx : Ctx} {file_path : Str}
    {tgt : FPath} {ctx' : Ctx} {k : Str}
    (h : notify nf cb ctx file_path tgt = some (ctx', some k)) :
    get_canonical_path nf file_path = some k ∧ k ∉ ctx.antic ∧
    ∃ mt, fsStat ctx.fs tgt = .ok mt ∧
      (lookupA ctx.meta k = none ∨ lookupA ctx.meta k = some 0 ∨
       ∃ r, lookupA ctx.meta k = some r ∧ r < mt) := by
  unfold notify at h
  split at h
  · cases h
  rename_i canonical hc
  split at h
  · simp at h
  rename_i hmem
  split at h
  · simp at h
  rename_i mt hstat
  split at h
  · cases cb with
    | false => simp at h
    | true =>
      simp only [Option.some.injEq, Prod.mk.injEq] at h
      obtain ⟨-, hk⟩ := h
      injection hk with hk
      subst hk
      rename_i htrig
      refine ⟨hc, hmem, mt, hstat, ?_⟩
      revert htrig
      match hrec : lookupA ctx.meta canonical with
      | none => exact fun _ => Or.inl rfl
      | some r =>
        intro htrig
        simp only [Bool.or_eq_true, decide_eq_true_eq] at htrig
        rcases htrig with rfl | hlt
        · exact Or.inr (Or.inl rfl)
        · exact Or.inr (Or.inr ⟨r, rfl, hlt⟩)
  · simp at h

/-- C9: whenever chokidar_handler completes on a directory-kind event (addDir
    or unlinkDir) the external callback is not invoked; and whenever it invokes
    the callback, the event is a file-kind add or change, its canonical path is
    not anticipated, and either no mtime is recorded for it (a falsy recorded
    mtime counts as never seen, as in the code's truthiness test) or the
    observed mtime is strictly newer than the recorded one. -/
theorem C9_watcher_callback_conditions (cS : Bool) (nf : Str → Str)
    (filter : Option (Str → FsEvt → Bool)) (cb : Bool) (base_dir : Str)
    (root : Node) (ctx : Ctx) (fullpath : Str) (event : FsEvt)
    (st : Node × Ctx × Option Str)
    (h : chokidar_handler cS nf filter cb base_dir root ctx fullpath event = some st) :
    ((event = FsEvt.addDir ∨ event = FsEvt.unlinkDir) → st.2.2 = none) ∧
    (∀ k, st.2.2 = some k →
      (event = FsEvt.add ∨ event = FsEvt.change) ∧
      get_canonical_path nf (fullpath.drop base_dir.length) = some k ∧
      k ∉ ctx.antic ∧
      ∃ mt, fsStat ctx.fs (splitOnSlash ((fullpath.drop base_dir.length).drop 1)) = .ok mt ∧
        (lookupA ctx.meta k = none ∨ lookupA ctx.meta k = some 0 ∨
         ∃ r, lookupA ctx.meta k = some r ∧ r < mt)) := by
  unfold chokidar_handler at h
  split at h
  · injection h with h'
    subst h'
    exact ⟨fun _ => rfl, fun k hk => by simp at hk⟩
  split at h
  · injection h with h'
    subst h'
    exact ⟨fun _ => rfl, fun k hk => by simp at hk⟩
  split at h
  · cases h
  rename_i root1 hw1
  split at h
  · cases h
  rename_i root2 hw2
  match hev : event with
  | .addDir =>
    injection h with h'
    subst h'
    exact ⟨fun _ => rfl, fun k hk => by simp at hk⟩
  | .unlinkDir =>
    injection h with h'
    subst h'
    exact ⟨fun _ => rfl, fun k hk => by simp at hk⟩
  | .unlink =>
    simp only [] at h
    split at h
    · cases h
    injection h with h'
    subst h'
    exact ⟨fun hd => by simp at hd, fun k hk => by simp at hk⟩
  | .add =>
    simp only [] at h
    split at h
    · cases h
    rename_i r hn
    injection h with h'
    subst h'
    refine ⟨fun hd => by simp at hd, fun k hk => ?_⟩
    obtain ⟨c', fired⟩ := r
    simp only at hk
    subst hk
    obtain ⟨hc, hmem, hmt⟩ := notify_fired hn
    exact ⟨Or.inl rfl, hc, hmem, hmt⟩
  | .change =>
    simp only [] at h
    split at h
    · cases h
    rename_i r hn
    injection h with h'
    subst h'
    refine ⟨fun hd => by simp at hd, fun k hk => ?_⟩
    obtain ⟨c', fired⟩ := r
    simp only at hk
    subst hk
    obtain ⟨hc, hmem, hmt⟩ := notify_fired hn
    exact ⟨Or.inr rfl, hc, hmem, hmt⟩

def rootC9 : Node := (create_node [47]).setDirp (some none)

def ctxC9 : Ctx :=
  { fs := { files := [([[97]], [65])], mtimes := [([[97]], 5)], clock := 6,
            dirs := [[]], fail := [], ro := [] },
    meta := [], antic := [] }

def stC9 : Node × Ctx × Option Str :=
  (Node.mk [47] [([97], Node.mk [97] [] [] none none)] [] none (some none),
   { fs := { files := [([[97]], [65])], mtimes := [([[97]], 5)], clock := 6,
             dirs := [[]], fail := [], ro := [] },
     meta := [([47, 97], 5)], antic := [] },
   some [47, 97])

theorem C9_watcher_callback_conditions_witness :
    chokidar_handler true id none true [] rootC9 ctxC9 [47, 97] FsEvt.add = some stC9 ∧
    (((FsEvt.add = FsEvt.addDir ∨ FsEvt.add = FsEvt.unlinkDir) → stC9.2.2 = none) ∧
     (∀ k, stC9.2.2 = some k →
       (FsEvt.add = FsEvt.add ∨ FsEvt.add = FsEvt.change) ∧
       get_canonical_path id (([47, 97] : Str).drop ([] : Str).length) = some k ∧
       k ∉ ctxC9.antic ∧
       ∃ mt, fsStat ctxC9.fs
           (splitOnSlash ((([47, 97] : Str).drop ([] : Str).length).drop 1)) = .ok mt ∧
         (lookupA ctxC9.meta k = none ∨ lookupA ctxC9.meta k = some 0 ∨
          ∃ r, lookupA ctxC9.meta k = some r ∧ r < mt))) :=
  ⟨rfl, C9_watcher_callback_conditions true id none true [] rootC9 ctxC9 [47, 97]
     FsEvt.add stC9 rfl⟩
